import Mathlib

/-!
# A two-phase-locking scheduler simulator (`main.go`)

Shallow embedding of the scheduler of `main.go` and proofs about it.

Modelling conventions.

* A Go `map[K]V` is a function `K → Option V`: `none` is an absent key, a read of
  an absent key yields the zero value of `V`, an assignment makes the key present,
  `delete` makes it absent.
* Go `int` is the 64-bit two's-complement integer: the two additions of the
  program (`Data[k] += 1`, `Attempts++`) wrap around (`wrapInt`).
* `map[int]*Transaction` is a map to `Transaction` values; the pointers are never
  shared, so a mutation through the pointer is an update of the entry.  A
  dereference of the absent (nil) entry is a run-time panic, kept as the outcome
  `Outcome.nilPanic` together with the state at the panic.
* `ExecuteOperation`, `checkDeadlock`, `abortTransaction` and `restartTransaction`
  are mutually recursive in the source.  `ExecuteOperation` recurses on a fuel
  counter that is decremented at each nested call of `ExecuteOperation`; the other
  three are written over the function used for the nested call.
* Each method is one atomic state transformer; console output is not modelled.
* The goroutines of `ProcessHistory` interleave between statements (only
  `AcquireLock` and `ReleaseLock` hold the mutex): `ProcessHistory` takes a list of
  moves (`Move`) saying when the loop starts its next goroutine and which
  goroutine runs how many statements next.  The runs in which the calls do not
  overlap are described apart (`Sched`, `runSchedule`).  The order in which
  `processDelays` ranges over the map `Delays` is a parameter as well.
* The field `Type` of `Operation` is called `Typ` (`Type` is reserved in Lean).
-/

namespace TwoPL

/-! ## Go integers and maps -/

/-- Smallest value of a Go `int` (64 bits). -/
def minInt : Int := -(2 ^ 63)

/-- Largest value of a Go `int` (64 bits). -/
def maxInt : Int := 2 ^ 63 - 1

/-- Two's-complement wrap-around of an integer result into the range of `int`. -/
def wrapInt (n : Int) : Int := (n + 2 ^ 63) % 2 ^ 64 - 2 ^ 63

/-- Go map from `κ` to `ν`: `none` is an absent key. -/
abbrev GoMap (κ ν : Type) := κ → Option ν

namespace GoMap

variable {κ ν : Type}

/-- The map made by `make(map[K]V)`. -/
def empty : GoMap κ ν := fun _ => none

/-- The read `m[k]`, with `zero` the zero value of the element type. -/
def read (zero : ν) (m : GoMap κ ν) (k : κ) : ν := (m k).getD zero

/-- The assignment `m[k] = v`. -/
def write [DecidableEq κ] (m : GoMap κ ν) (k : κ) (v : ν) : GoMap κ ν :=
  fun j => if j = k then some v else m j

/-- The statement `delete(m, k)`. -/
def delete [DecidableEq κ] (m : GoMap κ ν) (k : κ) : GoMap κ ν :=
  fun j => if j = k then none else m j

end GoMap

/-! ## Data model (`main.go` lines 9-37) -/

/-- Go struct `Operation`. -/
structure Operation where
  TxID : Int
  Typ : String
  Data : String
deriving DecidableEq, Repr

/-- Go struct `Transaction`. -/
structure Transaction where
  ID : Int
  Active : Bool
  Attempts : Int
deriving DecidableEq, Repr

/-- Go struct `Database` (the mutex is not state). Lock states: 0 none, 1 shared,
2 exclusive. -/
structure Database where
  Data : GoMap String Int
  Locks : GoMap String Int

/-- Go struct `Scheduler`. -/
structure Scheduler where
  Database : Database
  History : List Operation
  FinalHist : List Operation
  Delays : GoMap Int (List Operation)
  Transactions : GoMap Int Transaction
  DeadlockCheck : GoMap Int Bool

/-- The lock state `s.Database.Locks[k]`. -/
def Scheduler.lock (s : Scheduler) (k : String) : Int := s.Database.Locks.read 0 k

/-- The stored value `s.Database.Data[k]`. -/
def Scheduler.value (s : Scheduler) (k : String) : Int := s.Database.Data.read 0 k

/-- The deferred queue `s.Delays[txID]` (the nil slice when absent). -/
def Scheduler.queue (s : Scheduler) (txID : Int) : List Operation := s.Delays.read [] txID

/-- The flag `s.DeadlockCheck[txID]`. -/
def Scheduler.flag (s : Scheduler) (txID : Int) : Bool := s.DeadlockCheck.read false txID

/-- The assignment `s.Database.Locks[k] = v`. -/
def Scheduler.setLock (s : Scheduler) (k : String) (v : Int) : Scheduler :=
  { s with Database := { s.Database with Locks := s.Database.Locks.write k v } }

/-- The assignment `s.Database.Data[k] = v`. -/
def Scheduler.setValue (s : Scheduler) (k : String) (v : Int) : Scheduler :=
  { s with Database := { s.Database with Data := s.Database.Data.write k v } }

/-- Go `NewDatabase` (lines 40-45). -/
def NewDatabase : Database :=
  { Data := ((GoMap.empty.write "x" 1).write "y" 2).write "z" 3
    Locks := GoMap.empty }

/-- Go `NewScheduler` (lines 48-57). -/
def NewScheduler (db : Database) : Scheduler :=
  { Database := db
    History := []
    FinalHist := []
    Delays := GoMap.empty
    Transactions := GoMap.empty
    DeadlockCheck := GoMap.empty }

/-! ## Lock table (`main.go` lines 60-89) -/

/-- Go `Scheduler.AcquireLock` (lines 60-78): the returned boolean and the state
after the call. -/
def AcquireLock (s : Scheduler) (op : Operation) : Bool × Scheduler :=
  if op.Typ = "r" then
    if s.lock op.Data = 0 ∨ s.lock op.Data = 1 then
      (true, s.setLock op.Data 1)
    else
      (false, s)
  else if op.Typ = "w" then
    if s.lock op.Data = 0 then
      (true, s.setLock op.Data 2)
    else
      (false, s)
  else
    (false, s)

/-- Go `Scheduler.ReleaseLock` (lines 81-89). -/
def ReleaseLock (s : Scheduler) (op : Operation) : Scheduler :=
  if op.Typ = "r" ∨ op.Typ = "w" then s.setLock op.Data 0 else s

/-! ## Abort and restart (`main.go` lines 112-150) -/

/-- Result of running a method that may call itself again or dereference nil. -/
inductive Outcome where
  /-- The call returned, leaving this state. -/
  | returned (s : Scheduler)
  /-- The call panicked on a nil `*Transaction`; the state at the panic. -/
  | nilPanic (s : Scheduler)
  /-- The fuel of the model was used up before the call returned. -/
  | outOfFuel

/-- The state a call left behind, when it returned or panicked. -/
def Outcome.state : Outcome → Option Scheduler
  | .returned s => some s
  | .nilPanic s => some s
  | .outOfFuel => none

/-- Go `Scheduler.removeOperationFromFinalHist` (lines 135-142) on the slice:
drop the first entry whose three fields equal those of `op`. -/
def removeFirst (op : Operation) : List Operation → List Operation
  | [] => []
  | finalOp :: rest =>
    if finalOp.TxID = op.TxID ∧ finalOp.Typ = op.Typ ∧ finalOp.Data = op.Data then
      rest
    else
      finalOp :: removeFirst op rest

/-- Go `Scheduler.removeOperationFromFinalHist` (lines 135-142). -/
def removeOperationFromFinalHist (s : Scheduler) (op : Operation) : Scheduler :=
  { s with FinalHist := removeFirst op s.FinalHist }

/-- The loop `for _, op := range ops { body }` where the body is `exec`: it stops
at the first call that does not return. -/
def rangeOps (exec : Scheduler → Operation → Outcome) :
    List Operation → Scheduler → Outcome
  | [], s => .returned s
  | op :: rest, s =>
    match exec s op with
    | .returned s1 => rangeOps exec rest s1
    | other => other

/-- Go `Scheduler.restartTransaction` (lines 145-150), `exec` being the nested
`ExecuteOperation`.  The `Printf` argument dereferences `s.Transactions[txID]`. -/
def restartTransactionWith (exec : Scheduler → Operation → Outcome)
    (s : Scheduler) (txID : Int) : Outcome :=
  match s.Transactions txID with
  | none => .nilPanic s
  | some _ => rangeOps exec (s.queue txID) s

/-- The removal step of `abortTransaction` (lines 122-128): when `txID` has a
queue, each queued operation is removed from `FinalHist` and the queue is
deleted. -/
def abortRemoval (s : Scheduler) (txID : Int) : Scheduler :=
  match s.Delays txID with
  | some ops =>
    let s1 := ops.foldl removeOperationFromFinalHist s
    { s1 with Delays := s1.Delays.delete txID }
  | none => s

/-- Go `Scheduler.abortTransaction` (lines 120-132), `exec` being the nested
`ExecuteOperation`. -/
def abortTransactionWith (exec : Scheduler → Operation → Outcome)
    (s : Scheduler) (txID : Int) : Outcome :=
  let s1 := abortRemoval s txID
  match s1.Transactions txID with
  | none => .nilPanic s1
  | some t =>
    let s2 := { s1 with
      Transactions := s1.Transactions.write txID { t with Attempts := wrapInt (t.Attempts + 1) } }
    restartTransactionWith exec s2 txID

/-- Go `Scheduler.checkDeadlock` (lines 112-117), `exec` being the nested
`ExecuteOperation`. -/
def checkDeadlockWith (exec : Scheduler → Operation → Outcome)
    (s : Scheduler) (txID : Int) : Outcome :=
  if s.flag txID = true then abortTransactionWith exec s txID else .returned s

/-! ## Execution (`main.go` lines 92-109 and 170-182) -/

/-- Go `Scheduler.ExecuteOperation` (lines 92-109).  `fuel` bounds the depth of
nested `ExecuteOperation` calls. -/
def ExecuteOperation : Nat → Scheduler → Operation → Outcome
  | 0, _, _ => .outOfFuel
  | fuel + 1, s, op =>
    let s1 := { s with History := s.History ++ [op] }
    match AcquireLock s1 op with
    | (true, s2) =>
      let s3 := { s2 with FinalHist := s2.FinalHist ++ [op] }
      let s4 :=
        if op.Typ = "r" then s3
        else if op.Typ = "w" then s3.setValue op.Data (wrapInt (s3.value op.Data + 1))
        else s3
      .returned (ReleaseLock s4 op)
    | (false, s2) =>
      let s3 := { s2 with Delays := s2.Delays.write op.TxID (s2.queue op.TxID ++ [op]) }
      let s4 := { s3 with DeadlockCheck := s3.DeadlockCheck.write op.TxID true }
      checkDeadlockWith (ExecuteOperation fuel) s4 op.TxID

/-- Go `Scheduler.checkDeadlock` with `fuel` for the nested calls. -/
def checkDeadlock (fuel : Nat) (s : Scheduler) (txID : Int) : Outcome :=
  checkDeadlockWith (ExecuteOperation fuel) s txID

/-- Go `Scheduler.abortTransaction` with `fuel` for the nested calls. -/
def abortTransaction (fuel : Nat) (s : Scheduler) (txID : Int) : Outcome :=
  abortTransactionWith (ExecuteOperation fuel) s txID

/-- Go `Scheduler.restartTransaction` with `fuel` for the nested calls. -/
def restartTransaction (fuel : Nat) (s : Scheduler) (txID : Int) : Outcome :=
  restartTransactionWith (ExecuteOperation fuel) s txID

/-- Body of the inner loop of `processDelays` (lines 173-179) for one queued
operation of transaction `txID`. -/
def processDelayOp (txID : Int) (s : Scheduler) (op : Operation) : Scheduler :=
  match AcquireLock s op with
  | (true, s1) =>
    let s2 := { s1 with FinalHist := s1.FinalHist ++ [op] }
    let s3 := ReleaseLock s2 op
    let s4 := { s3 with Delays := s3.Delays.delete txID }
    { s4 with DeadlockCheck := s4.DeadlockCheck.write txID false }
  | (false, s1) => s1

/-- One iteration of the outer loop of `processDelays` (lines 171-181): the queue
found for `txID` is walked to its end even after the entry has been deleted. -/
def processDelaysTx (s : Scheduler) (txID : Int) : Scheduler :=
  match s.Delays txID with
  | some ops => ops.foldl (processDelayOp txID) s
  | none => s

/-- Go `Scheduler.processDelays` (lines 170-182).  Go leaves the order of a map
range unspecified: `order` is the order in which the keys of `Delays` are
visited. -/
def processDelays (order : List Int) (s : Scheduler) : Scheduler :=
  order.foldl processDelaysTx s


/-! ## Operation sequences and sample states used by the theorems -/

/-- The `Transaction` record that `ProcessHistory` stores for a new id (line 157). -/
def newTransaction (txID : Int) : Transaction := { ID := txID, Active := true, Attempts := 0 }

/-- One write of key `k` for each transaction id of `txs`, in that order. -/
def writesOn (k : String) (txs : List Int) : List Operation :=
  txs.map fun txID => { TxID := txID, Typ := "w", Data := k }

/-- The initial scheduler with the value of `x` at the largest `int`. -/
def fullState : Scheduler := (NewScheduler NewDatabase).setValue "x" maxInt

/-- The initial scheduler with `x` held exclusively and transaction 1 recorded. -/
def lockedState : Scheduler :=
  { (NewScheduler NewDatabase).setLock "x" 2 with
    Transactions := GoMap.empty.write 1 (newTransaction 1) }

/-- A state in which the write of `x` by transaction 1 is both in `FinalHist` and
in the deferred queue of transaction 1, every key being unlocked. -/
def queuedState : Scheduler :=
  { Database :=
      { Data := ((GoMap.empty.write "x" 2).write "y" 3).write "z" 3
        Locks := GoMap.empty }
    History := [⟨1, "w", "x"⟩, ⟨2, "w", "y"⟩, ⟨1, "w", "x"⟩]
    FinalHist := [⟨1, "w", "x"⟩, ⟨2, "w", "y"⟩]
    Delays := GoMap.empty.write 1 [⟨1, "w", "x"⟩]
    Transactions := (GoMap.empty.write 1 (newTransaction 1)).write 2 (newTransaction 2)
    DeadlockCheck := GoMap.empty.write 1 true }

/-- A state in which `FinalHist` holds the write of `x` by transaction 1 twice and
the deferred queue of transaction 1 holds it once. -/
def dupState : Scheduler :=
  { Database :=
      { Data := ((GoMap.empty.write "x" 3).write "y" 2).write "z" 3
        Locks := GoMap.empty.write "x" 2 }
    History := [⟨1, "w", "x"⟩, ⟨1, "w", "x"⟩, ⟨1, "w", "x"⟩]
    FinalHist := [⟨1, "w", "x"⟩, ⟨1, "w", "x"⟩]
    Delays := GoMap.empty.write 1 [⟨1, "w", "x"⟩]
    Transactions := GoMap.empty.write 1 (newTransaction 1)
    DeadlockCheck := GoMap.empty.write 1 true }

/-- The initial scheduler with transaction 1 recorded at the largest attempt
count. -/
def wornState : Scheduler :=
  { NewScheduler NewDatabase with
    Transactions := GoMap.empty.write 1 { ID := 1, Active := true, Attempts := maxInt } }

/-- The abort as section 4.3 of the specification words it: the queued operations
are removed from `FinalHist`, the queue is cleared, the attempt counter is
incremented, and then every operation of the queue as it was before the clearing
is run through `ExecuteOperation`. -/
def abortTransactionSpec (fuel : Nat) (s : Scheduler) (txID : Int) : Outcome :=
  let ops := s.queue txID
  let s1 := abortRemoval s txID
  match s1.Transactions txID with
  | none => .nilPanic s1
  | some t =>
    rangeOps (ExecuteOperation fuel) ops
      { s1 with
        Transactions :=
          s1.Transactions.write txID { t with Attempts := wrapInt (t.Attempts + 1) } }

/-- Whether the call returned. -/
def Outcome.isReturned : Outcome → Bool
  | .returned _ => true
  | _ => false

/-! ## The driver loop (`main.go` lines 153-167 and 184-195) -/

/-- Whether `s.Transactions` has an entry for `txID`. -/
def Scheduler.recorded (s : Scheduler) (txID : Int) : Bool := (s.Transactions txID).isSome

/-- The test and assignment of `ProcessHistory` (lines 156-158) for one operation. -/
def recordTransaction (s : Scheduler) (op : Operation) : Scheduler :=
  match s.Transactions op.TxID with
  | some _ => s
  | none => { s with Transactions := s.Transactions.write op.TxID (newTransaction op.TxID) }

/-- One decision of a serial run of the loop of `ProcessHistory` (lines 155-165):
a run in which every goroutine runs its `ExecuteOperation` call from the first
statement to the last before any other goroutine takes a step. -/
inductive Sched where
  /-- The loop takes its next operation: it records the transaction and starts
  the goroutine of the operation. -/
  | spawn
  /-- The goroutine at position `i` among those started and not yet run runs its
  whole `ExecuteOperation` call (line 162), no other goroutine taking a step
  meanwhile. -/
  | run (i : Nat)

/-- The rest of a serial run once the decisions are used up: the operations `todo`
not yet reached are recorded and started, then the started goroutines run their
`ExecuteOperation` calls one after another in the order in which they were
started. -/
def finishAll (fuel : Nat) : List Operation → List Operation → Scheduler → Outcome
  | [], started, s => rangeOps (ExecuteOperation fuel) started s
  | op :: todo, started, s => finishAll fuel todo (started ++ [op]) (recordTransaction s op)

/-- A serial run of the loop of `ProcessHistory` up to `wg.Wait()` (lines 155-165)
under the decisions `sched`: `todo` are the operations the loop has not reached,
`started` the goroutines started and not yet run.  A decision that cannot be taken
is skipped.  A panic in a goroutine ends the program.  Runs in which the calls of
two goroutines overlap are not among these; they are runs of `runMoves`. -/
def runSchedule (fuel : Nat) :
    List Sched → List Operation → List Operation → Scheduler → Outcome
  | [], todo, started, s => finishAll fuel todo started s
  | .spawn :: rest, [], started, s => runSchedule fuel rest [] started s
  | .spawn :: rest, op :: todo, started, s =>
    runSchedule fuel rest todo (started ++ [op]) (recordTransaction s op)
  | .run i :: rest, todo, started, s =>
    match started.get? i with
    | none => runSchedule fuel rest todo started s
    | some op =>
      match ExecuteOperation fuel s op with
      | .returned s1 => runSchedule fuel rest todo (started.eraseIdx i) s1
      | other => other

/-! ## Goroutines statement by statement (`main.go` lines 92-167)

Only `AcquireLock` and `ReleaseLock` hold the mutex, so the goroutines started by
`ProcessHistory` interleave between the statements of `ExecuteOperation` and of
the methods it calls.  A goroutine is the list of the statements it still has to
run; a run is a list of moves, each letting the loop start a goroutine or one
goroutine run some statements.  Every run of this model is a run of the program.
The program has more runs than these: a statement is taken as one step, and the
fatal error of the Go runtime on an unsynchronised concurrent map access is not
modelled. -/

/-- A statement of `ExecuteOperation`, `checkDeadlock`, `abortTransaction` or
`restartTransaction` that a goroutine has to run. -/
inductive Instr where
  /-- Entry of `ExecuteOperation(op)`: the append to `History` (line 93). -/
  | exec (op : Operation)
  /-- The call `s.AcquireLock(op)` and the branch on its result (line 94). -/
  | acquire (op : Operation)
  /-- The append to `FinalHist` (line 95). -/
  | commit (op : Operation)
  /-- The read or the write of the value (lines 96-101). -/
  | apply (op : Operation)
  /-- The call `s.ReleaseLock(op)` (line 102). -/
  | release (op : Operation)
  /-- The append to `s.Delays[op.TxID]` (line 104). -/
  | enqueue (op : Operation)
  /-- The assignment `s.DeadlockCheck[txID] = true` (line 106). -/
  | mark (txID : Int)
  /-- The test of `checkDeadlock` (line 113). -/
  | check (txID : Int)
  /-- The read `ops, exists := s.Delays[txID]` of `abortTransaction` (line 122). -/
  | snapshot (txID : Int)
  /-- One call of `removeOperationFromFinalHist` (line 125). -/
  | remove (op : Operation)
  /-- The statement `delete(s.Delays, txID)` (line 127). -/
  | clear (txID : Int)
  /-- The statement `s.Transactions[txID].Attempts++` (line 130). -/
  | bump (txID : Int)
  /-- Entry of `restartTransaction`: the dereference of line 146 and the read of
  `s.Delays[txID]` that the loop of line 147 ranges over. -/
  | restart (txID : Int)

/-- One statement run by a goroutine on the shared state `s`: the state after it
and the statements the goroutine has to run next (`rest` are those that follow
the statement), or the state at the panic on a nil `*Transaction`. -/
def stepInstr (s : Scheduler) (rest : List Instr) :
    Instr → Except Scheduler (Scheduler × List Instr)
  | .exec op => .ok ({ s with History := s.History ++ [op] }, .acquire op :: rest)
  | .acquire op =>
    match AcquireLock s op with
    | (true, s1) => .ok (s1, .commit op :: .apply op :: .release op :: rest)
    | (false, s1) => .ok (s1, .enqueue op :: .mark op.TxID :: .check op.TxID :: rest)
  | .commit op => .ok ({ s with FinalHist := s.FinalHist ++ [op] }, rest)
  | .apply op =>
    .ok (if op.Typ = "r" then s
      else if op.Typ = "w" then s.setValue op.Data (wrapInt (s.value op.Data + 1))
      else s, rest)
  | .release op => .ok (ReleaseLock s op, rest)
  | .enqueue op =>
    .ok ({ s with Delays := s.Delays.write op.TxID (s.queue op.TxID ++ [op]) }, rest)
  | .mark txID => .ok ({ s with DeadlockCheck := s.DeadlockCheck.write txID true }, rest)
  | .check txID =>
    .ok (s, if s.flag txID = true then .snapshot txID :: .bump txID :: .restart txID :: rest
      else rest)
  | .snapshot txID =>
    match s.Delays txID with
    | some ops => .ok (s, ops.map .remove ++ .clear txID :: rest)
    | none => .ok (s, rest)
  | .remove op => .ok (removeOperationFromFinalHist s op, rest)
  | .clear txID => .ok ({ s with Delays := s.Delays.delete txID }, rest)
  | .bump txID =>
    match s.Transactions txID with
    | none => .error s
    | some t =>
      .ok ({ s with
        Transactions :=
          s.Transactions.write txID { t with Attempts := wrapInt (t.Attempts + 1) } }, rest)
  | .restart txID =>
    match s.Transactions txID with
    | none => .error s
    | some _ => .ok (s, (s.queue txID).map .exec ++ rest)

/-- A goroutine runs `n` statements in a row, or fewer when it reaches its end. -/
def runSteps : Nat → List Instr → Scheduler → Except Scheduler (Scheduler × List Instr)
  | 0, k, s => .ok (s, k)
  | _ + 1, [], s => .ok (s, [])
  | n + 1, i :: rest, s =>
    match stepInstr s rest i with
    | .ok (s1, k1) => runSteps n k1 s1
    | .error s1 => .error s1

/-- One move of a run of the loop of `ProcessHistory`. -/
inductive Move where
  /-- The loop takes its next operation: it records the transaction (lines
  156-158) and starts the goroutine of the operation (lines 160-163). -/
  | spawn
  /-- The goroutine at position `i` among those that have not ended runs `n`
  statements in a row. -/
  | steps (i n : Nat)

/-- The loop of `ProcessHistory` in the middle of a run: the shared scheduler, the
operations the loop has not reached, and for every goroutine that has not ended
the statements it still has to run. -/
structure Pool where
  shared : Scheduler
  todo : List Operation
  running : List (List Instr)

/-- The pool after one move, or the state at the panic of a goroutine.  A move that
cannot be taken leaves the pool as it is; a goroutine that has run its last
statement leaves the pool. -/
def Pool.move (p : Pool) : Move → Except Scheduler Pool
  | .spawn =>
    match p.todo with
    | [] => .ok p
    | op :: todo =>
      .ok { shared := recordTransaction p.shared op, todo := todo,
            running := p.running ++ [[.exec op]] }
  | .steps i n =>
    match p.running.get? i with
    | none => .ok p
    | some k =>
      match runSteps n k p.shared with
      | .error s1 => .error s1
      | .ok (s1, []) => .ok { p with shared := s1, running := p.running.eraseIdx i }
      | .ok (s1, k1) => .ok { p with shared := s1, running := p.running.set i k1 }

/-- The loop of `ProcessHistory` up to the return of `wg.Wait()` (lines 155-165)
under the moves `moves`: the shared state when every operation was started and
every goroutine has ended, the state at the panic of a goroutine, or `outOfFuel`
when the moves are used up while `wg.Wait()` is still waiting. -/
def runMoves : List Move → Pool → Outcome
  | [], p =>
    match p.todo, p.running with
    | [], [] => .returned p.shared
    | _, _ => .outOfFuel
  | m :: rest, p =>
    match p.move m with
    | .ok p1 => runMoves rest p1
    | .error s1 => .nilPanic s1

/-- Go `Scheduler.ProcessHistory` (lines 153-167): the loop and its goroutines
under the moves `moves`, then `processDelays` visiting the queues in the order
`order`. -/
def ProcessHistory (moves : List Move) (order : List Int) (operations : List Operation)
    (s : Scheduler) : Outcome :=
  match runMoves moves { shared := s, todo := operations, running := [] } with
  | .returned s1 => .returned (processDelays order s1)
  | other => other

/-- A run of `ProcessHistory` on the four operations of `main` in which the two
writes of transaction 2 hold `x` and `y` while the two writes of transaction 1
are refused: the four goroutines are started; `T2 w x` and `T2 w y` take their
locks; `T1 w y` is refused and runs up to its `Attempts++`; `T1 w x` is refused
and runs up to its deadlock test; `T2 w x` and `T2 w y` run to their ends; `T1 w
y` restarts and finds `T1 w x` in the queue; `T1 w x` runs to its end. -/
def mainOverlap : List Move :=
  [.spawn, .spawn, .spawn, .spawn, .steps 3 2, .steps 1 2, .steps 2 9, .steps 0 5,
    .steps 3 3, .steps 1 3, .steps 1 6, .steps 0 5]

/-- The operation list of `main` (lines 188-193). -/
def mainOperations : List Operation :=
  [⟨1, "w", "x"⟩, ⟨2, "w", "y"⟩, ⟨1, "w", "y"⟩, ⟨2, "w", "x"⟩]

/-- Number of write operations on key `k` in a history. -/
def writesIn (k : String) (l : List Operation) : Nat :=
  l.countP fun o => decide (o.Typ = "w" ∧ o.Data = k)

/-- The initial scheduler with `x` held exclusively and the queue of transaction 1
holding a write of `x` and a write of `y`. -/
def sweepState : Scheduler :=
  { (NewScheduler NewDatabase).setLock "x" 2 with
    History := [⟨1, "w", "x"⟩, ⟨1, "w", "y"⟩]
    Delays := GoMap.empty.write 1 [⟨1, "w", "x"⟩, ⟨1, "w", "y"⟩]
    Transactions := GoMap.empty.write 1 (newTransaction 1)
    DeadlockCheck := GoMap.empty.write 1 true }

/-- The initial scheduler with `x` held exclusively and the queue of transaction 1
holding a write of `x`. -/
def pendingState : Scheduler :=
  { (NewScheduler NewDatabase).setLock "x" 2 with
    History := [⟨1, "w", "x"⟩]
    Delays := GoMap.empty.write 1 [⟨1, "w", "x"⟩]
    Transactions := GoMap.empty.write 1 (newTransaction 1)
    DeadlockCheck := GoMap.empty.write 1 true }

/-- A lock state is one of 0 (none), 1 (shared), 2 (exclusive). -/
def validLock (v : Int) : Prop := v = 0 ∨ v = 1 ∨ v = 2

/-- The state `wornState` with `x` held exclusively. -/
def wornLockedState : Scheduler := wornState.setLock "x" 2

/-- The value equation: the stored value of every key is `init` of the key plus the
number of writes of the key in `FinalHist`. -/
def valueEquation (init : String → Int) (s : Scheduler) : Prop :=
  ∀ k, s.value k = init k + writesIn k s.FinalHist

/-- What holds of the scheduler started from `NewScheduler NewDatabase` after `n`
calls of `ExecuteOperation` that ran one after another: every key is
unlocked, no transaction has a queue, `FinalHist` holds reads and writes only, at
most `n` of them, and the value equation holds in wrap-around arithmetic. -/
def loopInvariant (n : Nat) (s : Scheduler) : Prop :=
  (∀ k, s.lock k = 0) ∧ (∀ tx, s.queue tx = []) ∧
  (∀ o ∈ s.FinalHist, o.Typ = "r" ∨ o.Typ = "w") ∧ s.FinalHist.length ≤ n ∧
  ∀ k, s.value k = wrapInt ((NewScheduler NewDatabase).value k + writesIn k s.FinalHist)

/-! ## Theorems -/

theorem lock_setLock_same (s : Scheduler) (k : String) (v : Int) :
    (s.setLock k v).lock k = v := by
  simp [Scheduler.lock, Scheduler.setLock, GoMap.read, GoMap.write]

theorem locks_setLock_ne (s : Scheduler) (k j : String) (v : Int) (h : j ≠ k) :
    (s.setLock k v).Database.Locks j = s.Database.Locks j := by
  simp [Scheduler.setLock, GoMap.write, h]

theorem write_write {κ ν : Type} [DecidableEq κ] (m : GoMap κ ν) (k : κ) (v w : ν) :
    (m.write k v).write k w = m.write k w := by
  funext j
  by_cases h : j = k <;> simp [GoMap.write, h]

theorem delete_write {κ ν : Type} [DecidableEq κ] (m : GoMap κ ν) (k : κ) (v : ν) :
    (m.write k v).delete k = m.delete k := by
  funext j
  by_cases h : j = k <;> simp [GoMap.write, GoMap.delete, h]

theorem delete_of_absent {κ ν : Type} [DecidableEq κ] (m : GoMap κ ν) (k : κ)
    (h : m k = none) : m.delete k = m := by
  funext j
  by_cases hj : j = k
  · simp [GoMap.delete, hj, h]
  · simp [GoMap.delete, hj]

theorem removeFirst_eq_erase (op : Operation) (l : List Operation) :
    removeFirst op l = l.erase op := by
  induction l with
  | nil => rfl
  | cons a rest ih =>
    by_cases h : a = op
    · subst h
      simp [removeFirst]
    · have h3 : ¬ (a.TxID = op.TxID ∧ a.Typ = op.Typ ∧ a.Data = op.Data) := by
        rintro ⟨h1, h2, h3⟩
        apply h
        cases a
        cases op
        simp_all
      simp [removeFirst, h3, ih, List.erase_cons_tail, h]

theorem foldl_removeOperation (ops : List Operation) (s : Scheduler) :
    ops.foldl removeOperationFromFinalHist s = { s with FinalHist := s.FinalHist.diff ops } := by
  induction ops generalizing s with
  | nil => simp
  | cons op rest ih =>
    simp [List.foldl_cons, ih, removeOperationFromFinalHist, removeFirst_eq_erase,
      List.diff_cons]

theorem abortRemoval_eq (s : Scheduler) (txID : Int) :
    abortRemoval s txID =
      { s with FinalHist := s.FinalHist.diff (s.queue txID), Delays := s.Delays.delete txID } := by
  unfold abortRemoval
  cases h : s.Delays txID with
  | none => simp [Scheduler.queue, GoMap.read, h, delete_of_absent]
  | some ops => simp [Scheduler.queue, GoMap.read, h, foldl_removeOperation]

theorem abortTransactionWith_registered (exec : Scheduler → Operation → Outcome)
    (s : Scheduler) (txID : Int) (t : Transaction) (ht : s.Transactions txID = some t) :
    abortTransactionWith exec s txID =
      .returned { s with
        FinalHist := s.FinalHist.diff (s.queue txID)
        Delays := s.Delays.delete txID
        Transactions :=
          s.Transactions.write txID { t with Attempts := wrapInt (t.Attempts + 1) } } := by
  simp [abortTransactionWith, abortRemoval_eq, ht, restartTransactionWith, GoMap.write,
    Scheduler.queue, GoMap.read, GoMap.delete, rangeOps]

theorem abortTransactionWith_unregistered (exec : Scheduler → Operation → Outcome)
    (s : Scheduler) (txID : Int) (ht : s.Transactions txID = none) :
    abortTransactionWith exec s txID =
      .nilPanic { s with
        FinalHist := s.FinalHist.diff (s.queue txID)
        Delays := s.Delays.delete txID } := by
  simp [abortTransactionWith, abortRemoval_eq, ht]

theorem AcquireLock_with_History (s : Scheduler) (op : Operation) (h : List Operation) :
    AcquireLock { s with History := h } op =
      ((AcquireLock s op).1, { (AcquireLock s op).2 with History := h }) := by
  have hl : ({ s with History := h } : Scheduler).lock op.Data = s.lock op.Data := rfl
  simp only [AcquireLock, hl]
  split_ifs <;> rfl

theorem AcquireLock_false_state (s : Scheduler) (op : Operation)
    (h : (AcquireLock s op).1 = false) : AcquireLock s op = (false, s) := by
  revert h
  unfold AcquireLock
  split_ifs <;> simp

theorem ExecuteOperation_refused (fuel : Nat) (s : Scheduler) (op : Operation)
    (h : (AcquireLock s op).1 = false) :
    ExecuteOperation (fuel + 1) s op =
      abortTransactionWith (ExecuteOperation fuel)
        { s with
          History := s.History ++ [op]
          Delays := s.Delays.write op.TxID (s.queue op.TxID ++ [op])
          DeadlockCheck := s.DeadlockCheck.write op.TxID true } op.TxID := by
  simp [ExecuteOperation, AcquireLock_with_History, AcquireLock_false_state s op h,
    checkDeadlockWith, Scheduler.flag, Scheduler.queue, GoMap.read, GoMap.write]

theorem ExecuteOperation_granted_read (fuel : Nat) (s : Scheduler) (op : Operation)
    (hr : op.Typ = "r") (hl : s.lock op.Data = 0 ∨ s.lock op.Data = 1) :
    ExecuteOperation (fuel + 1) s op =
      .returned (({ s with History := s.History ++ [op], FinalHist := s.FinalHist ++ [op] } :
        Scheduler).setLock op.Data 0) := by
  have hl2 : ({ s with History := s.History ++ [op] } : Scheduler).lock op.Data = 0 ∨
      ({ s with History := s.History ++ [op] } : Scheduler).lock op.Data = 1 := hl
  simp [ExecuteOperation, AcquireLock, hr, hl2, ReleaseLock, Scheduler.setLock, write_write]

theorem ExecuteOperation_granted_write (fuel : Nat) (s : Scheduler) (op : Operation)
    (hw : op.Typ = "w") (hl : s.lock op.Data = 0) :
    ExecuteOperation (fuel + 1) s op =
      .returned ((({ s with History := s.History ++ [op], FinalHist := s.FinalHist ++ [op] } :
        Scheduler).setValue op.Data (wrapInt (s.value op.Data + 1))).setLock op.Data 0) := by
  have hrw : ("w" : String) ≠ "r" := by decide
  have hl2 : ({ s with History := s.History ++ [op] } : Scheduler).lock op.Data = 0 := hl
  simp [ExecuteOperation, AcquireLock, hw, hrw, hl2, ReleaseLock, Scheduler.setLock,
    Scheduler.setValue, Scheduler.value, write_write]

theorem ExecuteOperation_refused_registered (fuel : Nat) (s : Scheduler) (op : Operation)
    (h : (AcquireLock s op).1 = false) (t : Transaction)
    (ht : s.Transactions op.TxID = some t) :
    ExecuteOperation (fuel + 1) s op =
      .returned { s with
        History := s.History ++ [op]
        FinalHist := s.FinalHist.diff (s.queue op.TxID ++ [op])
        Delays := s.Delays.delete op.TxID
        Transactions :=
          s.Transactions.write op.TxID { t with Attempts := wrapInt (t.Attempts + 1) }
        DeadlockCheck := s.DeadlockCheck.write op.TxID true } := by
  have ht2 : ({ s with
      History := s.History ++ [op]
      Delays := s.Delays.write op.TxID (s.queue op.TxID ++ [op])
      DeadlockCheck := s.DeadlockCheck.write op.TxID true } : Scheduler).Transactions op.TxID =
        some t := ht
  rw [ExecuteOperation_refused fuel s op h, abortTransactionWith_registered _ _ _ t ht2]
  simp [Scheduler.queue, GoMap.read, GoMap.write, delete_write]

theorem ExecuteOperation_refused_unregistered (fuel : Nat) (s : Scheduler) (op : Operation)
    (h : (AcquireLock s op).1 = false) (ht : s.Transactions op.TxID = none) :
    ExecuteOperation (fuel + 1) s op =
      .nilPanic { s with
        History := s.History ++ [op]
        FinalHist := s.FinalHist.diff (s.queue op.TxID ++ [op])
        Delays := s.Delays.delete op.TxID
        DeadlockCheck := s.DeadlockCheck.write op.TxID true } := by
  have ht2 : ({ s with
      History := s.History ++ [op]
      Delays := s.Delays.write op.TxID (s.queue op.TxID ++ [op])
      DeadlockCheck := s.DeadlockCheck.write op.TxID true } : Scheduler).Transactions op.TxID =
        none := ht
  rw [ExecuteOperation_refused fuel s op h, abortTransactionWith_unregistered _ _ _ ht2]
  simp [Scheduler.queue, GoMap.read, GoMap.write, delete_write]

theorem AcquireLock_true_cases (s : Scheduler) (op : Operation)
    (h : (AcquireLock s op).1 = true) :
    (op.Typ = "r" ∧ (s.lock op.Data = 0 ∨ s.lock op.Data = 1)) ∨
      (op.Typ = "w" ∧ s.lock op.Data = 0) := by
  revert h
  unfold AcquireLock
  split_ifs with h1 h2 h3 h4 <;> simp_all

/-- C1: `AcquireLock` returns true exactly for a read of a key whose lock state is
0 or 1 and for a write of a key whose lock state is 0; a granted read leaves the
key at 1, a granted write at 2, and the entry of every other key of the lock
table is what it was. -/
theorem AcquireLock_grant (s : Scheduler) (op : Operation) :
    ((AcquireLock s op).1 = true ↔
      (op.Typ = "r" ∧ (s.lock op.Data = 0 ∨ s.lock op.Data = 1)) ∨
      (op.Typ = "w" ∧ s.lock op.Data = 0)) ∧
    ((AcquireLock s op).1 = true → op.Typ = "r" → (AcquireLock s op).2.lock op.Data = 1) ∧
    ((AcquireLock s op).1 = true → op.Typ = "w" → (AcquireLock s op).2.lock op.Data = 2) ∧
    (∀ k, k ≠ op.Data → (AcquireLock s op).2.Database.Locks k = s.Database.Locks k ∧
      (AcquireLock s op).2.lock k = s.lock k) := by
  have hrw : ("r" : String) ≠ "w" := by decide
  unfold AcquireLock
  by_cases hr : op.Typ = "r"
  · have hw : op.Typ ≠ "w" := by rw [hr]; exact hrw
    by_cases h01 : s.lock op.Data = 0 ∨ s.lock op.Data = 1
    · simp [hr, h01, lock_setLock_same, hrw]
      intro k hk
      simp [Scheduler.lock, GoMap.read, locks_setLock_ne s op.Data k 1 hk]
    · simp [hr, h01, hrw]
  · by_cases hw : op.Typ = "w"
    · by_cases h0 : s.lock op.Data = 0
      · simp [hr, hw, h0, lock_setLock_same, hrw.symm]
        intro k hk
        simp [Scheduler.lock, GoMap.read, locks_setLock_ne s op.Data k 2 hk]
      · simp [hr, hw, h0, hrw.symm]
    · simp [hr, hw]

/-- Witness of `AcquireLock_grant`: a write of the unlocked key `x` is granted and
leaves `x` exclusive. -/
theorem AcquireLock_grant_witness :
    (AcquireLock (NewScheduler NewDatabase) ⟨1, "w", "x"⟩).2.lock "x" = 2 :=
  (AcquireLock_grant (NewScheduler NewDatabase) ⟨1, "w", "x"⟩).2.2.1 (by decide) (by decide)

/-- C2: when `AcquireLock` returns false the state after the call (the lock table
and the value map in it) is the state before the call; a write of a key in state 1
or 2, a read of a key in state 2 and an operation that is neither a read nor a
write are refused and change nothing. -/
theorem AcquireLock_refused_unchanged (s : Scheduler) (op : Operation) :
    ((AcquireLock s op).1 = false →
      (AcquireLock s op).2 = s ∧
      (AcquireLock s op).2.Database.Locks = s.Database.Locks ∧
      (AcquireLock s op).2.Database.Data = s.Database.Data) ∧
    (op.Typ = "w" → s.lock op.Data = 1 ∨ s.lock op.Data = 2 → AcquireLock s op = (false, s)) ∧
    (op.Typ = "r" → s.lock op.Data = 2 → AcquireLock s op = (false, s)) ∧
    (op.Typ ≠ "r" → op.Typ ≠ "w" → AcquireLock s op = (false, s)) := by
  have hrw : ("r" : String) ≠ "w" := by decide
  refine ⟨?_, ?_, ?_, ?_⟩
  · intro h
    have hs : (AcquireLock s op).2 = s := by
      revert h
      unfold AcquireLock
      split_ifs <;> simp
    exact ⟨hs, by rw [hs], by rw [hs]⟩
  · intro hw hl
    have h0 : s.lock op.Data ≠ 0 := by rcases hl with h | h <;> rw [h] <;> decide
    simp [AcquireLock, hw, hrw.symm, h0]
  · intro hr hl
    simp [AcquireLock, hr, hl]
  · intro hr hw
    simp [AcquireLock, hr, hw]

/-- Witness of `AcquireLock_refused_unchanged`: a write of `x` held exclusively is
refused and leaves the state alone. -/
theorem AcquireLock_refused_unchanged_witness :
    AcquireLock ((NewScheduler NewDatabase).setLock "x" 2) ⟨1, "w", "x"⟩ =
      (false, (NewScheduler NewDatabase).setLock "x" 2) :=
  (AcquireLock_refused_unchanged ((NewScheduler NewDatabase).setLock "x" 2)
    ⟨1, "w", "x"⟩).2.1 (by decide) (by decide)

/-- C3: for a read or a write, `ReleaseLock` puts the lock state of the key of the
operation at 0 whatever it was, leaves the entry of every other key of the lock
table and the value map as they were, and does the same for any two reads or
writes of that key (the transaction id plays no part); for another kind it
returns the state as it was. -/
theorem ReleaseLock_resets (s : Scheduler) (op : Operation) :
    (op.Typ = "r" ∨ op.Typ = "w" →
      (ReleaseLock s op).lock op.Data = 0 ∧
      (∀ k, k ≠ op.Data → (ReleaseLock s op).Database.Locks k = s.Database.Locks k ∧
        (ReleaseLock s op).lock k = s.lock k) ∧
      (ReleaseLock s op).Database.Data = s.Database.Data ∧
      (∀ op2 : Operation, (op2.Typ = "r" ∨ op2.Typ = "w") → op2.Data = op.Data →
        ReleaseLock s op2 = ReleaseLock s op)) ∧
    (¬ (op.Typ = "r" ∨ op.Typ = "w") → ReleaseLock s op = s) := by
  constructor
  · intro h
    refine ⟨?_, ?_, ?_, ?_⟩
    · simp [ReleaseLock, h, lock_setLock_same]
    · intro k hk
      simp [ReleaseLock, h, Scheduler.lock, GoMap.read, locks_setLock_ne s op.Data k 0 hk]
    · simp [ReleaseLock, h, Scheduler.setLock]
    · intro op2 h2 hd
      simp [ReleaseLock, h, h2, hd]
  · intro h
    simp [ReleaseLock, h]

/-- Witness of `ReleaseLock_resets`: transaction 7 releases the key `x` that is in
the exclusive state. -/
theorem ReleaseLock_resets_witness :
    (ReleaseLock ((NewScheduler NewDatabase).setLock "x" 2) ⟨7, "r", "x"⟩).lock "x" = 0 :=
  ((ReleaseLock_resets ((NewScheduler NewDatabase).setLock "x" 2) ⟨7, "r", "x"⟩).1
    (Or.inl rfl)).1

theorem wrapInt_of_range (n : Int) (hlo : minInt ≤ n) (hhi : n ≤ maxInt) : wrapInt n = n := by
  unfold minInt at hlo
  unfold maxInt at hhi
  unfold wrapInt
  omega

/-- C4: when `AcquireLock` grants the lock, `ExecuteOperation` returns with the
operation appended at the end of `FinalHist` and the lock state of its key at 0;
when `AcquireLock` refuses it, the state `ExecuteOperation` leaves has as
`FinalHist` the old one minus first copies of the queued operations and of the
operation, a sublist of the old `FinalHist` in which the operation occurs no more
often than before. -/
theorem ExecuteOperation_FinalHist (fuel : Nat) (s : Scheduler) (op : Operation) :
    ((AcquireLock s op).1 = true →
      ∃ s', ExecuteOperation (fuel + 1) s op = .returned s' ∧
        s'.FinalHist = s.FinalHist ++ [op] ∧ s'.lock op.Data = 0) ∧
    ((AcquireLock s op).1 = false →
      ∃ s', (ExecuteOperation (fuel + 1) s op).state = some s' ∧
        s'.FinalHist = s.FinalHist.diff (s.queue op.TxID ++ [op]) ∧
        s'.FinalHist.Sublist s.FinalHist ∧
        s'.FinalHist.count op ≤ s.FinalHist.count op) := by
  constructor
  · intro h
    rcases AcquireLock_true_cases s op h with ⟨hr, hl⟩ | ⟨hw, hl⟩
    · exact ⟨_, ExecuteOperation_granted_read fuel s op hr hl, rfl, lock_setLock_same _ _ _⟩
    · exact ⟨_, ExecuteOperation_granted_write fuel s op hw hl, rfl, lock_setLock_same _ _ _⟩
  · intro h
    have hsub : (s.FinalHist.diff (s.queue op.TxID ++ [op])).Sublist s.FinalHist :=
      List.diff_sublist _ _
    cases ht : s.Transactions op.TxID with
    | none =>
      rw [ExecuteOperation_refused_unregistered fuel s op h ht]
      exact ⟨_, rfl, rfl, hsub, hsub.count_le op⟩
    | some t =>
      rw [ExecuteOperation_refused_registered fuel s op h t ht]
      exact ⟨_, rfl, rfl, hsub, hsub.count_le op⟩

/-- Witness of `ExecuteOperation_FinalHist`: the first write of `x` on the initial
scheduler is granted. -/
theorem ExecuteOperation_FinalHist_witness :
    ∃ s', ExecuteOperation 1 (NewScheduler NewDatabase) ⟨1, "w", "x"⟩ = .returned s' ∧
      s'.FinalHist = (NewScheduler NewDatabase).FinalHist ++ [⟨1, "w", "x"⟩] ∧
      s'.lock "x" = 0 :=
  (ExecuteOperation_FinalHist 0 (NewScheduler NewDatabase) ⟨1, "w", "x"⟩).1 (by decide)

theorem write_step (fuel : Nat) (s : Scheduler) (k : String) (txID : Int) (h0 : s.lock k = 0) :
    ∃ s', ExecuteOperation (fuel + 1) s ⟨txID, "w", k⟩ = .returned s' ∧
      s'.value k = wrapInt (s.value k + 1) ∧ s'.lock k = 0 ∧
      (∀ j, j ≠ k → s'.Database.Data j = s.Database.Data j) := by
  refine ⟨_, ExecuteOperation_granted_write fuel s ⟨txID, "w", k⟩ rfl h0, ?_, ?_, ?_⟩
  · simp [Scheduler.value, Scheduler.setLock, Scheduler.setValue, GoMap.read, GoMap.write]
  · exact lock_setLock_same _ _ _
  · intro j hj
    simp [Scheduler.setLock, Scheduler.setValue, GoMap.write, hj]

theorem writes_run (fuel : Nat) (k : String) (txs : List Int) :
    ∀ s : Scheduler, s.lock k = 0 → minInt ≤ s.value k → s.value k + txs.length ≤ maxInt →
      ∃ s', rangeOps (ExecuteOperation (fuel + 1)) (writesOn k txs) s = .returned s' ∧
        s'.value k = s.value k + txs.length ∧ s'.lock k = 0 ∧
        (∀ j, j ≠ k → s'.Database.Data j = s.Database.Data j) := by
  induction txs with
  | nil =>
    intro s h0 _ _
    exact ⟨s, rfl, by simp, h0, fun _ _ => rfl⟩
  | cons txID rest ih =>
    intro s h0 hlo hhi
    obtain ⟨s1, hrun, hval, hlock, hothers⟩ := write_step fuel s k txID h0
    have hlen : ((txID :: rest).length : Int) = (rest.length : Int) + 1 := by simp
    rw [hlen] at hhi
    have hv1 : s1.value k = s.value k + 1 := by
      rw [hval]
      apply wrapInt_of_range
      · omega
      · have : (0 : Int) ≤ rest.length := Int.natCast_nonneg _
        omega
    obtain ⟨s2, hrun2, hval2, hlock2, hothers2⟩ :=
      ih s1 hlock (by omega) (by rw [hv1]; omega)
    refine ⟨s2, ?_, ?_, hlock2, ?_⟩
    · simp only [writesOn, List.map_cons, rangeOps, hrun]
      exact hrun2
    · rw [hval2, hv1, hlen]
      ring
    · intro j hj
      rw [hothers2 j hj, hothers j hj]

/-- C5, as amended: for a state in which key `k` is unlocked and any transaction id,
one `ExecuteOperation` of a write of `k` returns with the value of `k` replaced by
the 64-bit wrap-around of its successor, which is the value plus 1 when the value
is an `int` below the largest one, and with the entry of every other key of the
value map as it was; a granted read returns with the value map as it was; writes
of `k` run one after another return with `k` at its initial value plus their
number, as long as that sum is at most the largest `int`. -/
theorem ExecuteOperation_write_increments (fuel : Nat) (s : Scheduler) (k : String)
    (h0 : s.lock k = 0) :
    (∀ txID : Int, ∃ s', ExecuteOperation (fuel + 1) s ⟨txID, "w", k⟩ = .returned s' ∧
      s'.value k = wrapInt (s.value k + 1) ∧
      (minInt ≤ s.value k → s.value k < maxInt → s'.value k = s.value k + 1) ∧
      (∀ j, j ≠ k → s'.Database.Data j = s.Database.Data j)) ∧
    (∀ op : Operation, op.Typ = "r" → (AcquireLock s op).1 = true →
      ∃ s', ExecuteOperation (fuel + 1) s op = .returned s' ∧
        s'.Database.Data = s.Database.Data) ∧
    (∀ txs : List Int, minInt ≤ s.value k → s.value k + txs.length ≤ maxInt →
      ∃ s', rangeOps (ExecuteOperation (fuel + 1)) (writesOn k txs) s = .returned s' ∧
        s'.value k = s.value k + txs.length ∧
        (∀ j, j ≠ k → s'.Database.Data j = s.Database.Data j)) := by
  have hrw : ("r" : String) ≠ "w" := by decide
  refine ⟨?_, ?_, ?_⟩
  · intro txID
    obtain ⟨s1, hrun, hval, _, hothers⟩ := write_step fuel s k txID h0
    refine ⟨s1, hrun, hval, ?_, hothers⟩
    intro hlo hhi
    rw [hval]
    apply wrapInt_of_range
    · omega
    · omega
  · intro op hr hg
    rcases AcquireLock_true_cases s op hg with ⟨_, hl⟩ | ⟨hw, _⟩
    · exact ⟨_, ExecuteOperation_granted_read fuel s op hr hl, rfl⟩
    · exact absurd (hr.symm.trans hw) hrw
  · intro txs hlo hhi
    obtain ⟨s1, hrun, hval, _, hothers⟩ := writes_run fuel k txs s h0 hlo hhi
    exact ⟨s1, hrun, hval, hothers⟩

/-- Witness of `ExecuteOperation_write_increments`: three writes of `x` by the
transactions 1, 2, 1 on the initial scheduler leave `x` at 1 + 3. -/
theorem ExecuteOperation_write_increments_witness :
    ∃ s', rangeOps (ExecuteOperation 1) (writesOn "x" [1, 2, 1]) (NewScheduler NewDatabase) =
        .returned s' ∧
      s'.value "x" = (NewScheduler NewDatabase).value "x" + ([1, 2, 1] : List Int).length ∧
      (∀ j, j ≠ "x" → s'.Database.Data j = (NewScheduler NewDatabase).Database.Data j) :=
  (ExecuteOperation_write_increments 0 (NewScheduler NewDatabase) "x" (by decide)).2.2
    [1, 2, 1] (by decide) (by decide)

/-- C5 as stated fails at the largest `int`: with `x` unlocked and at `maxInt`, a
granted write leaves `x` at `minInt`, not at `maxInt + 1`. -/
theorem ExecuteOperation_write_at_maxInt :
    fullState.lock "x" = 0 ∧
    (ExecuteOperation 1 fullState ⟨1, "w", "x"⟩).state.map (fun s' => s'.value "x") =
      some minInt ∧
    minInt ≠ fullState.value "x" + 1 := by
  decide

theorem processDelayOp_fields (txID : Int) (s : Scheduler) (op : Operation) :
    (processDelayOp txID s op).History = s.History ∧
    (processDelayOp txID s op).Transactions = s.Transactions ∧
    (processDelayOp txID s op).Database.Data = s.Database.Data := by
  unfold processDelayOp AcquireLock ReleaseLock
  split_ifs <;> simp_all [Scheduler.setLock]

theorem foldl_processDelayOp_fields (txID : Int) (ops : List Operation) (s : Scheduler) :
    (ops.foldl (processDelayOp txID) s).History = s.History ∧
    (ops.foldl (processDelayOp txID) s).Transactions = s.Transactions ∧
    (ops.foldl (processDelayOp txID) s).Database.Data = s.Database.Data := by
  induction ops generalizing s with
  | nil => exact ⟨rfl, rfl, rfl⟩
  | cons op rest ih =>
    obtain ⟨h1, h2, h3⟩ := processDelayOp_fields txID s op
    obtain ⟨i1, i2, i3⟩ := ih (processDelayOp txID s op)
    exact ⟨i1.trans h1, i2.trans h2, i3.trans h3⟩

theorem processDelaysTx_fields (s : Scheduler) (txID : Int) :
    (processDelaysTx s txID).History = s.History ∧
    (processDelaysTx s txID).Transactions = s.Transactions ∧
    (processDelaysTx s txID).Database.Data = s.Database.Data := by
  unfold processDelaysTx
  cases s.Delays txID with
  | none => exact ⟨rfl, rfl, rfl⟩
  | some ops => exact foldl_processDelayOp_fields txID ops s

theorem processDelays_fields (order : List Int) (s : Scheduler) :
    (processDelays order s).History = s.History ∧
    (processDelays order s).Transactions = s.Transactions ∧
    (processDelays order s).Database.Data = s.Database.Data := by
  unfold processDelays
  induction order generalizing s with
  | nil => exact ⟨rfl, rfl, rfl⟩
  | cons txID rest ih =>
    obtain ⟨h1, h2, h3⟩ := processDelaysTx_fields s txID
    obtain ⟨i1, i2, i3⟩ := ih (processDelaysTx s txID)
    exact ⟨i1.trans h1, i2.trans h2, i3.trans h3⟩

theorem ExecuteOperation_state (fuel : Nat) (s : Scheduler) (op : Operation) :
    ∃ s', (ExecuteOperation (fuel + 1) s op).state = some s' ∧
      s'.History = s.History ++ [op] ∧
      (∀ j, j ≠ op.TxID → s'.Transactions j = s.Transactions j) ∧
      (s'.Transactions op.TxID = s.Transactions op.TxID ∨
        ∃ t, s.Transactions op.TxID = some t ∧
          s'.Transactions op.TxID = some { t with Attempts := wrapInt (t.Attempts + 1) }) := by
  cases hg : (AcquireLock s op).1 with
  | true =>
    rcases AcquireLock_true_cases s op hg with ⟨hr, hl⟩ | ⟨hw, hl⟩
    · exact ⟨_, congrArg Outcome.state (ExecuteOperation_granted_read fuel s op hr hl), rfl,
        fun _ _ => rfl, Or.inl rfl⟩
    · exact ⟨_, congrArg Outcome.state (ExecuteOperation_granted_write fuel s op hw hl), rfl,
        fun _ _ => rfl, Or.inl rfl⟩
  | false =>
    cases ht : s.Transactions op.TxID with
    | none =>
      exact ⟨_, congrArg Outcome.state (ExecuteOperation_refused_unregistered fuel s op hg ht),
        rfl, fun _ _ => rfl, Or.inl ht⟩
    | some t =>
      refine ⟨_, congrArg Outcome.state (ExecuteOperation_refused_registered fuel s op hg t ht),
        rfl, ?_, Or.inr ⟨t, rfl, ?_⟩⟩
      · intro j hj
        simp [GoMap.write, hj]
      · simp [GoMap.write]

/-- C6: whether the lock is granted or refused, the state `ExecuteOperation`
leaves (on return, or at the panic on an unrecorded transaction) has as `History`
the old `History` followed by the operation, so the old `History` followed by the
operation is a prefix of it; `processDelays`, in any visiting order, and the
removal step of `abortTransaction` leave `History` as it was. -/
theorem History_append_only (fuel : Nat) (s : Scheduler) (op : Operation)
    (order : List Int) (txID : Int) :
    (∃ s', (ExecuteOperation (fuel + 1) s op).state = some s' ∧
      s'.History = s.History ++ [op] ∧ (s.History ++ [op]) <+: s'.History) ∧
    (processDelays order s).History = s.History ∧
    (abortRemoval s txID).History = s.History := by
  refine ⟨?_, (processDelays_fields order s).1, ?_⟩
  · obtain ⟨s1, hrun, hhist, _⟩ := ExecuteOperation_state fuel s op
    exact ⟨s1, hrun, hhist, by rw [hhist]⟩
  · rw [abortRemoval_eq]

/-- C7 fails on the code: on `queuedState`, whose queue for transaction 1 holds the
write of `x`, `abortTransaction` returns without running `ExecuteOperation` on it
(`History` has no new entry, `x` keeps its value, `FinalHist` has lost the write),
while the abort worded by the specification re-submits it (`History` and
`FinalHist` gain the write and `x` is incremented). -/
theorem abortTransaction_skips_restart :
    queuedState.queue 1 = [⟨1, "w", "x"⟩] ∧
    (abortTransaction 1 queuedState 1).state.map
        (fun s' => (s'.History, s'.FinalHist, s'.value "x", s'.queue 1)) =
      some ([⟨1, "w", "x"⟩, ⟨2, "w", "y"⟩, ⟨1, "w", "x"⟩], [⟨2, "w", "y"⟩], 2, []) ∧
    (abortTransactionSpec 1 queuedState 1).state.map
        (fun s' => (s'.History, s'.FinalHist, s'.value "x", s'.queue 1)) =
      some ([⟨1, "w", "x"⟩, ⟨2, "w", "y"⟩, ⟨1, "w", "x"⟩, ⟨1, "w", "x"⟩],
        [⟨2, "w", "y"⟩, ⟨1, "w", "x"⟩], 3, []) := by
  decide

/-- C8 fails on the code: with `x` held exclusively and never released,
`ExecuteOperation` of a write of `x` by the recorded transaction 1 returns for
every positive fuel, having entered `ExecuteOperation` once (one `History` entry)
and raised the attempt counter once, to 1. -/
theorem ExecuteOperation_conflict_returns (fuel : Nat) :
    (ExecuteOperation (fuel + 1) lockedState ⟨1, "w", "x"⟩).isReturned = true ∧
    (ExecuteOperation (fuel + 1) lockedState ⟨1, "w", "x"⟩).state.map
        (fun s' => (s'.lock "x", s'.History, s'.queue 1,
          (s'.Transactions 1).map fun t => t.Attempts)) =
      some (2, [⟨1, "w", "x"⟩], [], some 1) := by
  have h : (AcquireLock lockedState ⟨1, "w", "x"⟩).1 = false := by decide
  have ht : lockedState.Transactions (Operation.mk 1 "w" "x").TxID = some (newTransaction 1) := by
    decide
  rw [ExecuteOperation_refused_registered fuel lockedState ⟨1, "w", "x"⟩ h _ ht]
  decide

theorem count_diff_ops (o : Operation) (l ops : List Operation) :
    (l.diff ops).count o = l.count o - ops.count o := by
  induction ops generalizing l with
  | nil => simp
  | cons b rest ih =>
    rw [List.diff_cons, ih, List.count_erase, List.count_cons]
    split_ifs <;> omega

theorem abortTransaction_state (fuel : Nat) (s : Scheduler) (txID : Int) :
    ∃ s', (abortTransaction fuel s txID).state = some s' ∧
      s'.FinalHist = s.FinalHist.diff (s.queue txID) ∧
      (∀ t, s.Transactions txID = some t →
        abortTransaction fuel s txID = .returned s' ∧
        s'.Transactions txID = some { t with Attempts := wrapInt (t.Attempts + 1) }) ∧
      (∀ j, j ≠ txID → s'.Transactions j = s.Transactions j) := by
  unfold abortTransaction
  cases ht : s.Transactions txID with
  | none =>
    rw [abortTransactionWith_unregistered _ s txID ht]
    exact ⟨_, rfl, rfl, fun t h => by simp at h, fun _ _ => rfl⟩
  | some t =>
    rw [abortTransactionWith_registered _ s txID t ht]
    refine ⟨_, rfl, rfl, ?_, ?_⟩
    · intro t2 h2
      have : t = t2 := by simpa using h2
      subst this
      exact ⟨rfl, by simp [GoMap.write]⟩
    · intro j hj
      simp [GoMap.write, hj]

/-- C9, as amended: the state `abortTransaction` leaves (it returns when the
transaction is recorded) has as `FinalHist` the old one with, for each queued
operation, the first equal entry removed; every operation occurs in it as often as
before minus the number of its copies in the queue, never below zero; so a queued
operation is absent from it when `FinalHist` held no more copies of it than the
queue. -/
theorem abortTransaction_FinalHist_counts (fuel : Nat) (s : Scheduler) (txID : Int) :
    ∃ s', (abortTransaction fuel s txID).state = some s' ∧
      (∀ t, s.Transactions txID = some t → abortTransaction fuel s txID = .returned s') ∧
      s'.FinalHist = (s.queue txID).foldl (fun l op => removeFirst op l) s.FinalHist ∧
      (∀ o, s'.FinalHist.count o = s.FinalHist.count o - (s.queue txID).count o) ∧
      (∀ o, o ∈ s.queue txID → s.FinalHist.count o ≤ (s.queue txID).count o →
        o ∉ s'.FinalHist) := by
  obtain ⟨s1, hrun, hfinal, hreg, _⟩ := abortTransaction_state fuel s txID
  have hfold : ∀ (ops l : List Operation),
      ops.foldl (fun l op => removeFirst op l) l = l.diff ops := by
    intro ops l
    have hfun : (fun (l : List Operation) (op : Operation) => removeFirst op l) =
        fun l op => l.erase op := by
      funext l op
      exact removeFirst_eq_erase op l
    rw [hfun]
    exact (List.diff_eq_foldl l ops).symm
  have hcount : ∀ o, s1.FinalHist.count o = s.FinalHist.count o - (s.queue txID).count o := by
    intro o
    rw [hfinal, count_diff_ops]
  refine ⟨s1, hrun, fun t ht => (hreg t ht).1, ?_, hcount, ?_⟩
  · rw [hfinal, hfold]
  · intro o _ hle
    have h0 : s1.FinalHist.count o = 0 := by
      rw [hcount o]
      omega
    exact List.count_eq_zero.mp h0

/-- Witness of `abortTransaction_FinalHist_counts`: on `queuedState` the abort of
transaction 1 returns and the queued write of `x` is no longer in `FinalHist`. -/
theorem abortTransaction_FinalHist_counts_witness :
    ∃ s', abortTransaction 1 queuedState 1 = .returned s' ∧
      (⟨1, "w", "x"⟩ : Operation) ∉ s'.FinalHist := by
  obtain ⟨s1, _, hret, _, _, habsent⟩ := abortTransaction_FinalHist_counts 1 queuedState 1
  exact ⟨s1, hret (newTransaction 1) (by decide),
    habsent ⟨1, "w", "x"⟩ (by decide) (by decide)⟩

/-- C9 as stated fails when `FinalHist` holds duplicates: on `dupState` the write
of `x` is in the queue of transaction 1, `abortTransaction` returns, and the write
of `x` is still in `FinalHist`. -/
theorem abortTransaction_keeps_duplicate :
    (⟨1, "w", "x"⟩ : Operation) ∈ dupState.queue 1 ∧
    (abortTransaction 1 dupState 1).isReturned = true ∧
    (abortTransaction 1 dupState 1).state.map (fun s' => s'.FinalHist) =
      some [⟨1, "w", "x"⟩] := by
  decide

/-- C10, as amended: for a recorded transaction, `abortTransaction` returns with
its attempt counter replaced by the 64-bit wrap-around of its successor, which is
the counter plus 1 when the counter is an `int` below the largest one, and with
the entry of every other transaction as it was; the state `ExecuteOperation`
leaves has, for every recorded transaction whose counter is an `int` below the
largest one, a counter that is not lower; `processDelays` leaves the transaction
map as it was. -/
theorem attempts_monotone (fuel : Nat) (s : Scheduler) :
    (∀ txID t, s.Transactions txID = some t →
      ∃ s', abortTransaction fuel s txID = .returned s' ∧
        s'.Transactions txID = some { t with Attempts := wrapInt (t.Attempts + 1) } ∧
        (minInt ≤ t.Attempts → t.Attempts < maxInt →
          s'.Transactions txID = some { t with Attempts := t.Attempts + 1 }) ∧
        (∀ j, j ≠ txID → s'.Transactions j = s.Transactions j)) ∧
    (∀ op : Operation, ∃ s', (ExecuteOperation (fuel + 1) s op).state = some s' ∧
      ∀ j t, s.Transactions j = some t → minInt ≤ t.Attempts → t.Attempts < maxInt →
        ∃ t', s'.Transactions j = some t' ∧ t.Attempts ≤ t'.Attempts) ∧
    (∀ order : List Int, (processDelays order s).Transactions = s.Transactions) := by
  refine ⟨?_, ?_, fun order => (processDelays_fields order s).2.1⟩
  · intro txID t ht
    obtain ⟨s1, _, _, hreg, hothers⟩ := abortTransaction_state fuel s txID
    obtain ⟨hret, hbump⟩ := hreg t ht
    refine ⟨s1, hret, hbump, ?_, hothers⟩
    intro hlo hhi
    rw [hbump, wrapInt_of_range (t.Attempts + 1) (by omega) (by omega)]
  · intro op
    obtain ⟨s1, hrun, _, hothers, hown⟩ := ExecuteOperation_state fuel s op
    refine ⟨s1, hrun, ?_⟩
    intro j t ht hlo hhi
    by_cases hj : j = op.TxID
    · subst hj
      rcases hown with hsame | ⟨t0, ht0, hbump⟩
      · exact ⟨t, by rw [hsame, ht], le_refl _⟩
      · have : t0 = t := by
          rw [ht] at ht0
          exact (Option.some.inj ht0).symm
        subst this
        refine ⟨_, hbump, ?_⟩
        show t0.Attempts ≤ wrapInt (t0.Attempts + 1)
        rw [wrapInt_of_range (t0.Attempts + 1) (by omega) (by omega)]
        omega
    · exact ⟨t, by rw [hothers j hj, ht], le_refl _⟩

/-- Witness of `attempts_monotone`: on `queuedState` the abort of transaction 1
raises its attempt counter from 0 to 1. -/
theorem attempts_monotone_witness :
    ∃ s', abortTransaction 1 queuedState 1 = .returned s' ∧
      s'.Transactions 1 = some { newTransaction 1 with Attempts := 0 + 1 } := by
  obtain ⟨s1, hret, _, hplus, _⟩ :=
    (attempts_monotone 1 queuedState).1 1 (newTransaction 1) (by decide)
  exact ⟨s1, hret, hplus (by decide) (by decide)⟩

/-- C10 as stated fails at the largest `int`: on `wornState`, where transaction 1
is recorded with `maxInt` attempts, `abortTransaction` returns with the counter at
`minInt`, which is lower and is not `maxInt + 1`. -/
theorem abortTransaction_attempts_at_maxInt :
    (wornState.Transactions 1).map (fun t => t.Attempts) = some maxInt ∧
    (abortTransaction 1 wornState 1).isReturned = true ∧
    (abortTransaction 1 wornState 1).state.map
        (fun s' => (s'.Transactions 1).map fun t => t.Attempts) = some (some minInt) ∧
    minInt < maxInt ∧ minInt ≠ maxInt + 1 := by
  decide

theorem processDelayOp_granted (txID : Int) (s : Scheduler) (op : Operation)
    (h : (AcquireLock s op).1 = true) :
    processDelayOp txID s op =
      { s with
        Database := { s.Database with Locks := s.Database.Locks.write op.Data 0 }
        FinalHist := s.FinalHist ++ [op]
        Delays := s.Delays.delete txID
        DeadlockCheck := s.DeadlockCheck.write txID false } := by
  have hrw : ("w" : String) ≠ "r" := by decide
  rcases AcquireLock_true_cases s op h with ⟨hr, hl⟩ | ⟨hw, hl⟩
  · simp [processDelayOp, AcquireLock, hr, hl, ReleaseLock, Scheduler.setLock, write_write]
  · simp [processDelayOp, AcquireLock, hw, hrw, hl, ReleaseLock, Scheduler.setLock, write_write]

theorem processDelayOp_refused (txID : Int) (s : Scheduler) (op : Operation)
    (h : (AcquireLock s op).1 = false) : processDelayOp txID s op = s := by
  simp [processDelayOp, AcquireLock_false_state s op h]

theorem ExecuteOperation_cases (fuel : Nat) (s : Scheduler) (op : Operation) :
    ∃ s', (ExecuteOperation (fuel + 1) s op).state = some s' ∧
      s'.History = s.History ++ [op] ∧
      (((AcquireLock s op).1 = true ∧
          ExecuteOperation (fuel + 1) s op = .returned s' ∧
          s'.FinalHist = s.FinalHist ++ [op] ∧
          s'.Delays = s.Delays ∧ s'.DeadlockCheck = s.DeadlockCheck ∧
          s'.Transactions = s.Transactions ∧
          s'.Database.Locks = s.Database.Locks.write op.Data 0 ∧
          s'.Database.Data =
            if op.Typ = "w" then s.Database.Data.write op.Data (wrapInt (s.value op.Data + 1))
            else s.Database.Data) ∨
        ((AcquireLock s op).1 = false ∧
          s'.FinalHist = s.FinalHist.diff (s.queue op.TxID ++ [op]) ∧
          s'.Delays = s.Delays.delete op.TxID ∧
          s'.DeadlockCheck = s.DeadlockCheck.write op.TxID true ∧
          s'.Database = s.Database ∧
          ((s.Transactions op.TxID = none ∧
              ExecuteOperation (fuel + 1) s op = .nilPanic s' ∧
              s'.Transactions = s.Transactions) ∨
            ∃ t, s.Transactions op.TxID = some t ∧
              ExecuteOperation (fuel + 1) s op = .returned s' ∧
              s'.Transactions =
                s.Transactions.write op.TxID
                  { t with Attempts := wrapInt (t.Attempts + 1) }))) := by
  have hrw : ("r" : String) ≠ "w" := by decide
  cases hg : (AcquireLock s op).1 with
  | true =>
    rcases AcquireLock_true_cases s op hg with ⟨hr, hl⟩ | ⟨hw, hl⟩
    · have hnw : op.Typ ≠ "w" := by rw [hr]; exact hrw
      refine ⟨_, congrArg Outcome.state (ExecuteOperation_granted_read fuel s op hr hl), rfl,
        Or.inl ⟨rfl, ExecuteOperation_granted_read fuel s op hr hl, rfl, rfl, rfl, rfl, rfl, ?_⟩⟩
      simp [hnw, Scheduler.setLock]
    · refine ⟨_, congrArg Outcome.state (ExecuteOperation_granted_write fuel s op hw hl), rfl,
        Or.inl ⟨rfl, ExecuteOperation_granted_write fuel s op hw hl, rfl, rfl, rfl, rfl, rfl, ?_⟩⟩
      simp [hw, Scheduler.setLock, Scheduler.setValue]
  | false =>
    cases ht : s.Transactions op.TxID with
    | none =>
      exact ⟨_, congrArg Outcome.state (ExecuteOperation_refused_unregistered fuel s op hg ht),
        rfl, Or.inr ⟨rfl, rfl, rfl, rfl, rfl,
          Or.inl ⟨rfl, ExecuteOperation_refused_unregistered fuel s op hg ht, rfl⟩⟩⟩
    | some t =>
      exact ⟨_, congrArg Outcome.state (ExecuteOperation_refused_registered fuel s op hg t ht),
        rfl, Or.inr ⟨rfl, rfl, rfl, rfl, rfl,
          Or.inr ⟨t, rfl, ExecuteOperation_refused_registered fuel s op hg t ht, rfl⟩⟩⟩

theorem settled_processDelayOp (op : Operation) (txID : Int) (t : Int) (o : Operation)
    (s : Scheduler)
    (h : op ∈ s.FinalHist ∧ s.lock op.Data = 0 ∧ s.Delays txID = none ∧ s.flag txID = false) :
    op ∈ (processDelayOp t s o).FinalHist ∧ (processDelayOp t s o).lock op.Data = 0 ∧
      (processDelayOp t s o).Delays txID = none ∧ (processDelayOp t s o).flag txID = false := by
  obtain ⟨h1, h2, h3, h4⟩ := h
  cases hg : (AcquireLock s o).1 with
  | false =>
    rw [processDelayOp_refused t s o hg]
    exact ⟨h1, h2, h3, h4⟩
  | true =>
    rw [processDelayOp_granted t s o hg]
    refine ⟨by simp [h1], ?_, ?_, ?_⟩
    · by_cases hk : op.Data = o.Data
      · simp [Scheduler.lock, GoMap.read, GoMap.write, hk]
      · have := h2
        simp only [Scheduler.lock, GoMap.read] at this
        simp [Scheduler.lock, GoMap.read, GoMap.write, hk, this]
    · by_cases hk : txID = t
      · simp [GoMap.delete, hk]
      · simp [GoMap.delete, hk, h3]
    · by_cases hk : txID = t
      · simp [Scheduler.flag, GoMap.read, GoMap.write, hk]
      · have := h4
        simp only [Scheduler.flag, GoMap.read] at this
        simp [Scheduler.flag, GoMap.read, GoMap.write, hk, this]

theorem settled_foldl (op : Operation) (txID : Int) (t : Int) (ops : List Operation) :
    ∀ s : Scheduler,
      (op ∈ s.FinalHist ∧ s.lock op.Data = 0 ∧ s.Delays txID = none ∧ s.flag txID = false) →
      op ∈ (ops.foldl (processDelayOp t) s).FinalHist ∧
        (ops.foldl (processDelayOp t) s).lock op.Data = 0 ∧
        (ops.foldl (processDelayOp t) s).Delays txID = none ∧
        (ops.foldl (processDelayOp t) s).flag txID = false := by
  induction ops with
  | nil => intro s h; exact h
  | cons o rest ih =>
    intro s h
    exact ih _ (settled_processDelayOp op txID t o s h)

theorem settled_processDelays (op : Operation) (txID : Int) (order : List Int) :
    ∀ s : Scheduler,
      (op ∈ s.FinalHist ∧ s.lock op.Data = 0 ∧ s.Delays txID = none ∧ s.flag txID = false) →
      op ∈ (processDelays order s).FinalHist ∧
        (processDelays order s).lock op.Data = 0 ∧
        (processDelays order s).Delays txID = none ∧
        (processDelays order s).flag txID = false := by
  induction order with
  | nil => intro s h; exact h
  | cons t rest ih =>
    intro s h
    apply ih
    unfold processDelaysTx
    cases s.Delays t with
    | none => exact h
    | some ops => exact settled_foldl op txID t ops s h

theorem processDelays_append (pre post : List Int) (s : Scheduler) :
    processDelays (pre ++ post) s = processDelays post (processDelays pre s) := by
  simp [processDelays, List.foldl_append]

/-- C12: when `processDelays` visits transaction `txID` (after the transactions
`pre`, before the transactions `post`, in any order) and finds in its queue an
operation whose lock is granted at its turn, then after `processDelays` that
operation is in `FinalHist`, the lock state of its key is 0, `txID` has no entry
in `Delays` (the whole queue is gone) and the deadlock flag of `txID` is false. -/
theorem processDelays_granted (s : Scheduler) (pre post : List Int) (txID : Int)
    (before after : List Operation) (op : Operation)
    (hq : (processDelays pre s).Delays txID = some (before ++ op :: after))
    (hg : (AcquireLock (before.foldl (processDelayOp txID) (processDelays pre s)) op).1 = true) :
    op ∈ (processDelays (pre ++ txID :: post) s).FinalHist ∧
    (processDelays (pre ++ txID :: post) s).lock op.Data = 0 ∧
    (processDelays (pre ++ txID :: post) s).Delays txID = none ∧
    (processDelays (pre ++ txID :: post) s).queue txID = [] ∧
    (processDelays (pre ++ txID :: post) s).flag txID = false := by
  have hmid : op ∈ (processDelaysTx (processDelays pre s) txID).FinalHist ∧
      (processDelaysTx (processDelays pre s) txID).lock op.Data = 0 ∧
      (processDelaysTx (processDelays pre s) txID).Delays txID = none ∧
      (processDelaysTx (processDelays pre s) txID).flag txID = false := by
    simp only [processDelaysTx, hq, List.foldl_append, List.foldl_cons]
    apply settled_foldl
    rw [processDelayOp_granted txID _ op hg]
    refine ⟨by simp, ?_, ?_, ?_⟩
    · simp [Scheduler.lock, GoMap.read, GoMap.write]
    · simp [GoMap.delete]
    · simp [Scheduler.flag, GoMap.read, GoMap.write]
  have hend := settled_processDelays op txID post _ hmid
  have hsplit : processDelays (pre ++ txID :: post) s =
      processDelays post (processDelaysTx (processDelays pre s) txID) := by
    rw [processDelays_append]
    rfl
  rw [hsplit]
  obtain ⟨h1, h2, h3, h4⟩ := hend
  exact ⟨h1, h2, h3, by simp [Scheduler.queue, GoMap.read, h3], h4⟩

/-- Witness of `processDelays_granted`: on `sweepState` the write of `x` queued by
transaction 1 is refused and the write of `y` queued after it is granted. -/
theorem processDelays_granted_witness :
    (⟨1, "w", "y"⟩ : Operation) ∈ (processDelays ([] ++ 1 :: []) sweepState).FinalHist ∧
    (processDelays ([] ++ 1 :: []) sweepState).lock "y" = 0 ∧
    (processDelays ([] ++ 1 :: []) sweepState).Delays 1 = none ∧
    (processDelays ([] ++ 1 :: []) sweepState).queue 1 = [] ∧
    (processDelays ([] ++ 1 :: []) sweepState).flag 1 = false :=
  processDelays_granted sweepState [] [] 1 [⟨1, "w", "x"⟩] [] ⟨1, "w", "y"⟩
    (by decide) (by decide)

theorem foldl_processDelayOp_refused (txID : Int) (ops : List Operation) (s : Scheduler)
    (h : ∀ op ∈ ops, (AcquireLock s op).1 = false) :
    ops.foldl (processDelayOp txID) s = s := by
  induction ops with
  | nil => rfl
  | cons o rest ih =>
    rw [List.foldl_cons, processDelayOp_refused txID s o (h o (by simp))]
    exact ih fun op hop => h op (by simp [hop])

theorem processDelaysTx_other (s : Scheduler) (t txID : Int) (h : txID ≠ t) :
    (processDelaysTx s t).Delays txID = s.Delays txID := by
  have hop : ∀ (o : Operation) (s1 : Scheduler),
      (processDelayOp t s1 o).Delays txID = s1.Delays txID := by
    intro o s1
    cases hg : (AcquireLock s1 o).1 with
    | false => rw [processDelayOp_refused t s1 o hg]
    | true =>
      rw [processDelayOp_granted t s1 o hg]
      simp [GoMap.delete, h]
  have hfold : ∀ (ops : List Operation) (s1 : Scheduler),
      (ops.foldl (processDelayOp t) s1).Delays txID = s1.Delays txID := by
    intro ops
    induction ops with
    | nil => intro s1; rfl
    | cons o rest ih =>
      intro s1
      rw [List.foldl_cons, ih, hop]
  unfold processDelaysTx
  cases s.Delays t with
  | none => rfl
  | some ops => exact hfold ops s

/-- C13, as amended: an operation of the queue of `txID` is still in that queue
after `processDelays` when, at every visit of `txID` during the sweep, the lock of
every operation of the queue is refused; then the entry of `txID` in `Delays` is
what it was.  (When one operation of the queue is granted, the entry is deleted
with the refused operations in it.) -/
theorem processDelays_keeps_refused_queue (order : List Int) (s : Scheduler) (txID : Int)
    (ops : List Operation) (hq : s.Delays txID = some ops)
    (hfail : ∀ pre post, order = pre ++ txID :: post →
      ∀ op ∈ ops, (AcquireLock (processDelays pre s) op).1 = false) :
    (processDelays order s).Delays txID = some ops ∧
    ∀ op ∈ ops, op ∈ (processDelays order s).queue txID := by
  have hmain : ∀ (order : List Int) (s : Scheduler), s.Delays txID = some ops →
      (∀ pre post, order = pre ++ txID :: post →
        ∀ op ∈ ops, (AcquireLock (processDelays pre s) op).1 = false) →
      (processDelays order s).Delays txID = some ops := by
    intro order
    induction order with
    | nil => intro s hq _; exact hq
    | cons t rest ih =>
      intro s hq hfail
      show (processDelays rest (processDelaysTx s t)).Delays txID = some ops
      by_cases ht : t = txID
      · subst ht
        have hsame : processDelaysTx s t = s := by
          unfold processDelaysTx
          rw [hq]
          exact foldl_processDelayOp_refused t ops s (hfail [] rest rfl)
        rw [hsame]
        apply ih s hq
        intro pre post hsplit op hop
        have := hfail (t :: pre) post (by rw [hsplit]; rfl) op hop
        have hrun : processDelays (t :: pre) s = processDelays pre (processDelaysTx s t) := rfl
        rw [hrun, hsame] at this
        exact this
      · apply ih
        · rw [processDelaysTx_other s t txID (Ne.symm ht)]
          exact hq
        · intro pre post hsplit op hop
          exact hfail (t :: pre) post (by rw [hsplit]; rfl) op hop
  have hres := hmain order s hq hfail
  refine ⟨hres, ?_⟩
  intro op hop
  simp [Scheduler.queue, GoMap.read, hres, hop]

/-- Witness of `processDelays_keeps_refused_queue`: on `pendingState` the only
queued operation, a write of the exclusively held `x`, is refused and stays. -/
theorem processDelays_keeps_refused_queue_witness :
    (processDelays [1] pendingState).Delays 1 = some [⟨1, "w", "x"⟩] ∧
    ∀ op ∈ [(⟨1, "w", "x"⟩ : Operation)], op ∈ (processDelays [1] pendingState).queue 1 :=
  processDelays_keeps_refused_queue [1] pendingState 1 [⟨1, "w", "x"⟩] (by decide) (by
    intro pre post hsplit op hop
    have hpre : pre = [] := by
      cases pre with
      | nil => rfl
      | cons a rest =>
        have hlen := congrArg List.length hsplit
        simp at hlen
    subst hpre
    have hop2 : op = ⟨1, "w", "x"⟩ := by simpa using hop
    subst hop2
    decide)

/-- C13 as stated fails when another operation of the same queue is granted: on
`sweepState` the queue of transaction 1 holds a write of `x`, refused at its turn
and still refused after the sweep, and a write of `y`, granted; after
`processDelays` the write of `x` is neither in the queue of transaction 1 nor in
`FinalHist`. -/
theorem processDelays_drops_refused :
    sweepState.Delays 1 = some [⟨1, "w", "x"⟩, ⟨1, "w", "y"⟩] ∧
    (AcquireLock sweepState ⟨1, "w", "x"⟩).1 = false ∧
    (AcquireLock (processDelays [1] sweepState) ⟨1, "w", "x"⟩).1 = false ∧
    (processDelays [1] sweepState).queue 1 = [] ∧
    (processDelays [1] sweepState).FinalHist = [⟨1, "w", "y"⟩] := by
  decide

theorem flagged_processDelayOp (t : Int) (o : Operation) (s : Scheduler)
    (h : ∀ tx, s.queue tx ≠ [] → s.flag tx = true) :
    ∀ tx, (processDelayOp t s o).queue tx ≠ [] → (processDelayOp t s o).flag tx = true := by
  cases hg : (AcquireLock s o).1 with
  | false =>
    rw [processDelayOp_refused t s o hg]
    exact h
  | true =>
    rw [processDelayOp_granted t s o hg]
    intro tx
    by_cases hk : tx = t
    · simp [Scheduler.queue, GoMap.read, GoMap.delete, hk]
    · have := h tx
      simp only [Scheduler.queue, Scheduler.flag, GoMap.read] at this
      simpa [Scheduler.queue, Scheduler.flag, GoMap.read, GoMap.delete, GoMap.write, hk]
        using this

theorem flagged_processDelays (order : List Int) :
    ∀ s : Scheduler, (∀ tx, s.queue tx ≠ [] → s.flag tx = true) →
      ∀ tx, (processDelays order s).queue tx ≠ [] → (processDelays order s).flag tx = true := by
  have hfold : ∀ (t : Int) (ops : List Operation) (s : Scheduler),
      (∀ tx, s.queue tx ≠ [] → s.flag tx = true) →
      ∀ tx, (ops.foldl (processDelayOp t) s).queue tx ≠ [] →
        (ops.foldl (processDelayOp t) s).flag tx = true := by
    intro t ops
    induction ops with
    | nil => intro s h; exact h
    | cons o rest ih =>
      intro s h
      exact ih _ (flagged_processDelayOp t o s h)
  induction order with
  | nil => intro s h; exact h
  | cons t rest ih =>
    intro s h
    apply ih
    unfold processDelaysTx
    cases s.Delays t with
    | none => exact h
    | some ops => exact hfold t ops s h

/-- C14: the predicate "every transaction with a non-empty deferred queue has its
deadlock flag set" holds of a new scheduler, is kept by `ExecuteOperation` (in the
state it leaves on return or at the panic) and by `processDelays` in any visiting
order, so that after `processDelays` no transaction has a non-empty queue and a
false flag. -/
theorem flag_covers_queue (fuel : Nat) (db : Database) (s : Scheduler) (op : Operation)
    (order : List Int) :
    (∀ tx, (NewScheduler db).queue tx ≠ [] → (NewScheduler db).flag tx = true) ∧
    ((∀ tx, s.queue tx ≠ [] → s.flag tx = true) →
      ∃ s', (ExecuteOperation (fuel + 1) s op).state = some s' ∧
        ∀ tx, s'.queue tx ≠ [] → s'.flag tx = true) ∧
    ((∀ tx, s.queue tx ≠ [] → s.flag tx = true) →
      (∀ tx, (processDelays order s).queue tx ≠ [] → (processDelays order s).flag tx = true) ∧
      ∀ tx, ¬ ((processDelays order s).queue tx ≠ [] ∧ (processDelays order s).flag tx = false)) := by
  refine ⟨?_, ?_, ?_⟩
  · intro tx hne
    exact absurd rfl hne
  · intro h
    obtain ⟨s1, hrun, _, hcase⟩ := ExecuteOperation_cases fuel s op
    refine ⟨s1, hrun, ?_⟩
    rcases hcase with ⟨_, _, _, hd, hf, _⟩ | ⟨_, _, hd, hf, _⟩
    · intro tx
      have := h tx
      simpa [Scheduler.queue, Scheduler.flag, hd, hf] using this
    · intro tx
      by_cases hk : tx = op.TxID
      · simp [Scheduler.queue, GoMap.read, GoMap.delete, hd, hk]
      · have := h tx
        simp only [Scheduler.queue, Scheduler.flag, GoMap.read] at this
        simpa [Scheduler.queue, Scheduler.flag, GoMap.read, GoMap.delete, GoMap.write, hd, hf, hk]
          using this
  · intro h
    have hkeep := flagged_processDelays order s h
    refine ⟨hkeep, ?_⟩
    rintro tx ⟨hne, hfalse⟩
    rw [hkeep tx hne] at hfalse
    exact Bool.noConfusion hfalse

/-- Witness of `flag_covers_queue`: `pendingState`, whose only queue is that of
the flagged transaction 1, keeps the predicate through `processDelays`. -/
theorem flag_covers_queue_witness :
    ∀ tx, (processDelays [1] pendingState).queue tx ≠ [] →
      (processDelays [1] pendingState).flag tx = true :=
  ((flag_covers_queue 0 NewDatabase pendingState ⟨1, "w", "x"⟩ [1]).2.2 (by
    intro tx hne
    by_cases hk : tx = 1
    · subst hk
      decide
    · exact absurd (by simp [pendingState, Scheduler.queue, GoMap.read, GoMap.write,
        GoMap.empty, hk]) hne)).1

theorem validLock_write (s s' : Scheduler) (key : String) (v : Int) (hv : validLock v)
    (hs : s'.Database.Locks = s.Database.Locks.write key v)
    (h : ∀ k, validLock (s.lock k)) : ∀ k, validLock (s'.lock k) := by
  intro k
  by_cases hk : k = key
  · simpa [Scheduler.lock, GoMap.read, GoMap.write, hs, hk] using hv
  · have := h k
    simpa [Scheduler.lock, GoMap.read, GoMap.write, hs, hk] using this

theorem validLock_processDelays (order : List Int) :
    ∀ s : Scheduler, (∀ k, validLock (s.lock k)) →
      ∀ k, validLock ((processDelays order s).lock k) := by
  have hop : ∀ (t : Int) (o : Operation) (s : Scheduler), (∀ k, validLock (s.lock k)) →
      ∀ k, validLock ((processDelayOp t s o).lock k) := by
    intro t o s h
    cases hg : (AcquireLock s o).1 with
    | false =>
      rw [processDelayOp_refused t s o hg]
      exact h
    | true =>
      rw [processDelayOp_granted t s o hg]
      exact validLock_write s _ o.Data 0 (Or.inl rfl) rfl h
  have hfold : ∀ (t : Int) (ops : List Operation) (s : Scheduler),
      (∀ k, validLock (s.lock k)) →
      ∀ k, validLock ((ops.foldl (processDelayOp t) s).lock k) := by
    intro t ops
    induction ops with
    | nil => intro s h; exact h
    | cons o rest ih =>
      intro s h
      exact ih _ (hop t o s h)
  induction order with
  | nil => intro s h; exact h
  | cons t rest ih =>
    intro s h
    apply ih
    unfold processDelaysTx
    cases s.Delays t with
    | none => exact h
    | some ops => exact hfold t ops s h

/-- C15: every key of `NewDatabase` has lock state 0, and when every key has a
lock state among 0, 1 and 2, so it is after `AcquireLock`, after `ReleaseLock`,
in the state `ExecuteOperation` leaves, and after `processDelays` in any visiting
order, for every operation. -/
theorem lock_states_valid (fuel : Nat) (s : Scheduler) (op : Operation) (order : List Int)
    (h : ∀ k, validLock (s.lock k)) :
    (∀ k, (NewScheduler NewDatabase).lock k = 0 ∧ validLock ((NewScheduler NewDatabase).lock k)) ∧
    (∀ k, validLock ((AcquireLock s op).2.lock k)) ∧
    (∀ k, validLock ((ReleaseLock s op).lock k)) ∧
    (∃ s', (ExecuteOperation (fuel + 1) s op).state = some s' ∧ ∀ k, validLock (s'.lock k)) ∧
    (∀ k, validLock ((processDelays order s).lock k)) := by
  refine ⟨fun k => ⟨rfl, Or.inl rfl⟩, ?_, ?_, ?_, validLock_processDelays order s h⟩
  · unfold AcquireLock
    split_ifs
    · exact validLock_write s _ op.Data 1 (Or.inr (Or.inl rfl)) rfl h
    · exact h
    · exact validLock_write s _ op.Data 2 (Or.inr (Or.inr rfl)) rfl h
    · exact h
    · exact h
  · unfold ReleaseLock
    split_ifs
    · exact validLock_write s _ op.Data 0 (Or.inl rfl) rfl h
    · exact h
  · obtain ⟨s1, hrun, _, hcase⟩ := ExecuteOperation_cases fuel s op
    refine ⟨s1, hrun, ?_⟩
    rcases hcase with ⟨_, _, _, _, _, _, hl, _⟩ | ⟨_, _, _, _, hdb, _⟩
    · exact validLock_write s s1 op.Data 0 (Or.inl rfl) hl h
    · intro k
      have := h k
      simpa [Scheduler.lock, hdb] using this

/-- Witness of `lock_states_valid`: `lockedState`, where `x` is exclusive and the
other keys are unlocked, keeps valid lock states through `ExecuteOperation`. -/
theorem lock_states_valid_witness :
    ∃ s', (ExecuteOperation 1 lockedState ⟨1, "w", "x"⟩).state = some s' ∧
      ∀ k, validLock (s'.lock k) :=
  (lock_states_valid 0 lockedState ⟨1, "w", "x"⟩ [] (by
    intro k
    by_cases hk : k = "x"
    · subst hk
      exact Or.inr (Or.inr (by decide))
    · exact Or.inl (by
        simp [lockedState, Scheduler.lock, Scheduler.setLock, NewScheduler, NewDatabase,
          GoMap.read, GoMap.write, GoMap.empty, hk]))).2.2.2.1

/-- C16, as amended: the value map never loses a key and gains at most the key of a
granted write: the keys of the value map in the state `ExecuteOperation` leaves
are the keys it had, together with the key of the operation when the operation is
a write whose lock is granted; `processDelays` leaves the value map as it was. -/
theorem value_map_keys (fuel : Nat) (s : Scheduler) (op : Operation) (order : List Int) :
    (∃ s', (ExecuteOperation (fuel + 1) s op).state = some s' ∧
      ∀ k, (s'.Database.Data k).isSome = true ↔
        ((s.Database.Data k).isSome = true ∨
          (k = op.Data ∧ op.Typ = "w" ∧ (AcquireLock s op).1 = true))) ∧
    (processDelays order s).Database.Data = s.Database.Data := by
  refine ⟨?_, (processDelays_fields order s).2.2⟩
  obtain ⟨s1, hrun, _, hcase⟩ := ExecuteOperation_cases fuel s op
  refine ⟨s1, hrun, ?_⟩
  rcases hcase with ⟨hg, _, _, _, _, _, _, hdata⟩ | ⟨hg, _, _, _, hdb, _⟩
  · intro k
    rw [hdata]
    by_cases hw : op.Typ = "w"
    · by_cases hk : k = op.Data
      · simp [hw, hg, hk, GoMap.write]
      · simp [hw, hg, hk, GoMap.write]
    · simp [hw]
  · intro k
    rw [hdb]
    simp [hg]

/-- C16 as stated fails for a write of a key that is not in the value map: on the
initial scheduler, whose value map has no key `q`, `ExecuteOperation` of a write
of `q` leaves the value map with `q` at 1. -/
theorem ExecuteOperation_adds_key :
    (NewScheduler NewDatabase).Database.Data "q" = none ∧
    (ExecuteOperation 1 (NewScheduler NewDatabase) ⟨1, "w", "q"⟩).isReturned = true ∧
    (ExecuteOperation 1 (NewScheduler NewDatabase) ⟨1, "w", "q"⟩).state.map
        (fun s' => s'.Database.Data "q") = some (some 1) := by
  decide

theorem removeFirst_split (op e : Operation) (l2 : List Operation)
    (he : e.TxID = op.TxID ∧ e.Typ = op.Typ ∧ e.Data = op.Data) :
    ∀ l1 : List Operation,
      (∀ a ∈ l1, ¬ (a.TxID = op.TxID ∧ a.Typ = op.Typ ∧ a.Data = op.Data)) →
      removeFirst op (l1 ++ e :: l2) = l1 ++ l2 := by
  intro l1
  induction l1 with
  | nil =>
    intro _
    simp [removeFirst, he]
  | cons a rest ih =>
    intro h
    have ha := h a (by simp)
    have hrest := ih fun b hb => h b (by simp [hb])
    show removeFirst op (a :: (rest ++ e :: l2)) = a :: (rest ++ l2)
    rw [removeFirst, if_neg ha, hrest]

theorem removeFirst_no_match (op : Operation) :
    ∀ l : List Operation,
      (∀ a ∈ l, ¬ (a.TxID = op.TxID ∧ a.Typ = op.Typ ∧ a.Data = op.Data)) →
      removeFirst op l = l := by
  intro l
  induction l with
  | nil => intro _; rfl
  | cons a rest ih =>
    intro h
    have ha := h a (by simp)
    have hrest := ih fun b hb => h b (by simp [hb])
    simp only [removeFirst, if_neg ha, hrest]

/-- C17: `removeOperationFromFinalHist` removes the first entry of `FinalHist`
whose transaction id, kind and key equal those of the operation and keeps the
entries before and after it in their order; it changes nothing when no entry
matches; it touches no other field; `FinalHist` loses at most one entry and stays
a sublist of the old one; and when the operation occurred at least twice it is
still in `FinalHist`. -/
theorem removeOperationFromFinalHist_first (s : Scheduler) (op : Operation) :
    (∀ l1 e l2, s.FinalHist = l1 ++ e :: l2 →
      (e.TxID = op.TxID ∧ e.Typ = op.Typ ∧ e.Data = op.Data) →
      (∀ a ∈ l1, ¬ (a.TxID = op.TxID ∧ a.Typ = op.Typ ∧ a.Data = op.Data)) →
      (removeOperationFromFinalHist s op).FinalHist = l1 ++ l2) ∧
    ((∀ a ∈ s.FinalHist, ¬ (a.TxID = op.TxID ∧ a.Typ = op.Typ ∧ a.Data = op.Data)) →
      removeOperationFromFinalHist s op = s) ∧
    (removeOperationFromFinalHist s op).FinalHist.Sublist s.FinalHist ∧
    s.FinalHist.length ≤ (removeOperationFromFinalHist s op).FinalHist.length + 1 ∧
    (2 ≤ s.FinalHist.count op → op ∈ (removeOperationFromFinalHist s op).FinalHist) ∧
    (removeOperationFromFinalHist s op).History = s.History ∧
    (removeOperationFromFinalHist s op).Database = s.Database ∧
    (removeOperationFromFinalHist s op).Delays = s.Delays ∧
    (removeOperationFromFinalHist s op).Transactions = s.Transactions ∧
    (removeOperationFromFinalHist s op).DeadlockCheck = s.DeadlockCheck := by
  refine ⟨?_, ?_, ?_, ?_, ?_, rfl, rfl, rfl, rfl, rfl⟩
  · intro l1 e l2 hsplit he hl1
    show removeFirst op s.FinalHist = l1 ++ l2
    rw [hsplit]
    exact removeFirst_split op e l2 he l1 hl1
  · intro h
    show ({ s with FinalHist := removeFirst op s.FinalHist } : Scheduler) = s
    rw [removeFirst_no_match op s.FinalHist h]
  · show (removeFirst op s.FinalHist).Sublist s.FinalHist
    rw [removeFirst_eq_erase]
    exact List.erase_sublist op s.FinalHist
  · show s.FinalHist.length ≤ (removeFirst op s.FinalHist).length + 1
    rw [removeFirst_eq_erase, List.length_erase]
    split_ifs <;> omega
  · intro h2
    show op ∈ removeFirst op s.FinalHist
    rw [removeFirst_eq_erase]
    have hc : 0 < (s.FinalHist.erase op).count op := by
      rw [List.count_erase_self]
      omega
    exact List.count_pos_iff.mp hc

/-- Witness of `removeOperationFromFinalHist_first`: on `dupState`, whose
`FinalHist` holds the write of `x` by transaction 1 twice, the removal leaves the
second copy. -/
theorem removeOperationFromFinalHist_first_witness :
    (removeOperationFromFinalHist dupState ⟨1, "w", "x"⟩).FinalHist = [] ++ [⟨1, "w", "x"⟩] ∧
    (⟨1, "w", "x"⟩ : Operation) ∈ (removeOperationFromFinalHist dupState ⟨1, "w", "x"⟩).FinalHist :=
  ⟨(removeOperationFromFinalHist_first dupState ⟨1, "w", "x"⟩).1 [] ⟨1, "w", "x"⟩
      [⟨1, "w", "x"⟩] (by decide) (by decide) (by simp),
    (removeOperationFromFinalHist_first dupState ⟨1, "w", "x"⟩).2.2.2.2.1 (by decide)⟩

theorem foldl_removeFirst_eq_diff (ops l : List Operation) :
    ops.foldl (fun l op => removeFirst op l) l = l.diff ops := by
  have hfun : (fun (l : List Operation) (op : Operation) => removeFirst op l) =
      fun l op => l.erase op := by
    funext l op
    exact removeFirst_eq_erase op l
  rw [hfun]
  exact (List.diff_eq_foldl l ops).symm

/-- C19, as amended: when the transaction of the operation is recorded and
`AcquireLock` refuses the lock, `ExecuteOperation` returns for every positive
fuel, so without a nested `ExecuteOperation`, in a state where `History` is the
old one followed by the operation, the transaction has no entry in `Delays`, its
deadlock flag is true, its attempt counter is the 64-bit wrap-around of the
successor of the old one, which is the old one plus 1 when the old one is an `int`
below the largest, `FinalHist` is the old one with the first equal entry removed
for each operation of the old queue followed by the operation, and the lock table
and the value map are what they were. -/
theorem ExecuteOperation_refused_outcome (fuel : Nat) (s : Scheduler) (op : Operation)
    (t : Transaction) (ht : s.Transactions op.TxID = some t)
    (hg : (AcquireLock s op).1 = false) :
    ∃ s', ExecuteOperation (fuel + 1) s op = .returned s' ∧
      s'.History = s.History ++ [op] ∧
      s'.Delays op.TxID = none ∧ s'.queue op.TxID = [] ∧
      s'.flag op.TxID = true ∧
      s'.Transactions op.TxID = some { t with Attempts := wrapInt (t.Attempts + 1) } ∧
      (minInt ≤ t.Attempts → t.Attempts < maxInt →
        s'.Transactions op.TxID = some { t with Attempts := t.Attempts + 1 }) ∧
      s'.FinalHist =
        (s.queue op.TxID ++ [op]).foldl (fun l o => removeFirst o l) s.FinalHist ∧
      s'.Database.Locks = s.Database.Locks ∧ s'.Database.Data = s.Database.Data := by
  refine ⟨_, ExecuteOperation_refused_registered fuel s op hg t ht, rfl, ?_, ?_, ?_, ?_, ?_,
    ?_, rfl, rfl⟩
  · simp [GoMap.delete]
  · simp [Scheduler.queue, GoMap.read, GoMap.delete]
  · simp [Scheduler.flag, GoMap.read, GoMap.write]
  · simp [GoMap.write]
  · intro hlo hhi
    simp [GoMap.write, wrapInt_of_range (t.Attempts + 1) (by omega) (by omega)]
  · exact (foldl_removeFirst_eq_diff _ _).symm

/-- Witness of `ExecuteOperation_refused_outcome`: the write of the exclusively
held `x` by the recorded transaction 1 on `lockedState`. -/
theorem ExecuteOperation_refused_outcome_witness :
    ∃ s', ExecuteOperation 1 lockedState ⟨1, "w", "x"⟩ = .returned s' ∧
      s'.History = lockedState.History ++ [⟨1, "w", "x"⟩] ∧
      s'.Transactions 1 = some { newTransaction 1 with Attempts := 0 + 1 } := by
  obtain ⟨s1, hret, hhist, _, _, _, _, hplus, _⟩ :=
    ExecuteOperation_refused_outcome 0 lockedState ⟨1, "w", "x"⟩ (newTransaction 1)
      (by decide) (by decide)
  exact ⟨s1, hret, hhist, hplus (by decide) (by decide)⟩

/-- C19 as stated fails at the largest `int`: on `wornLockedState`, where `x` is
held exclusively and transaction 1 is recorded with `maxInt` attempts, the refused
`ExecuteOperation` returns with the counter at `minInt`, not one higher. -/
theorem ExecuteOperation_refused_at_maxInt :
    (wornLockedState.Transactions 1).map (fun t => t.Attempts) = some maxInt ∧
    (AcquireLock wornLockedState ⟨1, "w", "x"⟩).1 = false ∧
    (ExecuteOperation 1 wornLockedState ⟨1, "w", "x"⟩).isReturned = true ∧
    (ExecuteOperation 1 wornLockedState ⟨1, "w", "x"⟩).state.map
        (fun s' => (s'.Transactions 1).map fun t => t.Attempts) = some (some minInt) ∧
    minInt ≠ maxInt + 1 := by
  decide

theorem recordTransaction_recorded (s : Scheduler) (op : Operation) :
    (recordTransaction s op).recorded op.TxID = true := by
  unfold recordTransaction
  cases h : s.Transactions op.TxID with
  | none => simp [Scheduler.recorded, GoMap.write]
  | some t => simp [Scheduler.recorded, h]

theorem recordTransaction_keeps (s : Scheduler) (op : Operation) (j : Int)
    (hj : s.recorded j = true) : (recordTransaction s op).recorded j = true := by
  unfold recordTransaction
  cases h : s.Transactions op.TxID with
  | some t => exact hj
  | none =>
    by_cases hk : j = op.TxID
    · simp [Scheduler.recorded, GoMap.write, hk]
    · simpa [Scheduler.recorded, GoMap.write, hk] using hj

theorem ExecuteOperation_keeps_recorded (fuel : Nat) (s s' : Scheduler) (op : Operation)
    (hrun : ExecuteOperation (fuel + 1) s op = .returned s') (j : Int)
    (hj : s.recorded j = true) : s'.recorded j = true := by
  obtain ⟨s1, hstate, _, hothers, hown⟩ := ExecuteOperation_state fuel s op
  rw [hrun] at hstate
  have hs : s' = s1 := Option.some.inj hstate
  subst hs
  by_cases hk : j = op.TxID
  · subst hk
    rcases hown with hsame | ⟨t, _, hbump⟩
    · simpa [Scheduler.recorded, hsame] using hj
    · simp [Scheduler.recorded, hbump]
  · simpa [Scheduler.recorded, hothers j hk] using hj

theorem rangeOps_invariant (fuel : Nat) (P : Nat → Scheduler → Prop)
    (hexec : ∀ n s op, P n s → s.recorded op.TxID = true →
      ∃ s', ExecuteOperation (fuel + 1) s op = .returned s' ∧ P (n + 1) s') :
    ∀ (ops : List Operation) (n : Nat) (s : Scheduler), P n s →
      (∀ op ∈ ops, s.recorded op.TxID = true) →
      ∃ s', rangeOps (ExecuteOperation (fuel + 1)) ops s = .returned s' ∧
        P (n + ops.length) s' ∧ ∀ j, s.recorded j = true → s'.recorded j = true := by
  intro ops
  induction ops with
  | nil =>
    intro n s hP _
    exact ⟨s, rfl, hP, fun _ h => h⟩
  | cons op rest ih =>
    intro n s hP hrec
    obtain ⟨s1, hrun, hP1⟩ := hexec n s op hP (hrec op (by simp))
    have hkeep := ExecuteOperation_keeps_recorded fuel s s1 op hrun
    obtain ⟨s2, hrun2, hP2, hkeep2⟩ :=
      ih (n + 1) s1 hP1 fun o ho => hkeep _ (hrec o (by simp [ho]))
    refine ⟨s2, ?_, ?_, fun j hj => hkeep2 j (hkeep j hj)⟩
    · simp only [rangeOps, hrun]
      exact hrun2
    · have hlen : n + (op :: rest).length = n + 1 + rest.length := by
        simp only [List.length_cons]
        omega
      rw [hlen]
      exact hP2

theorem finishAll_invariant (fuel : Nat) (P : Nat → Scheduler → Prop)
    (hrec : ∀ n s op, P n s → P n (recordTransaction s op))
    (hexec : ∀ n s op, P n s → s.recorded op.TxID = true →
      ∃ s', ExecuteOperation (fuel + 1) s op = .returned s' ∧ P (n + 1) s') :
    ∀ (todo started : List Operation) (n : Nat) (s : Scheduler), P n s →
      (∀ op ∈ started, s.recorded op.TxID = true) →
      ∃ s', finishAll (fuel + 1) todo started s = .returned s' ∧
        P (n + todo.length + started.length) s' ∧
        (∀ j, s.recorded j = true → s'.recorded j = true) ∧
        (∀ op ∈ todo, s'.recorded op.TxID = true) := by
  intro todo
  induction todo with
  | nil =>
    intro started n s hP hst
    obtain ⟨s1, hrun, hP1, hkeep⟩ := rangeOps_invariant fuel P hexec started n s hP hst
    exact ⟨s1, hrun, by simpa using hP1, hkeep, fun _ h => absurd h (List.not_mem_nil _)⟩
  | cons op rest ih =>
    intro started n s hP hst
    have hst2 : ∀ o ∈ started ++ [op], (recordTransaction s op).recorded o.TxID = true := by
      intro o ho
      rcases List.mem_append.mp ho with h | h
      · exact recordTransaction_keeps s op _ (hst o h)
      · have : o = op := by simpa using h
        subst this
        exact recordTransaction_recorded s o
    obtain ⟨s1, hrun, hP1, hkeep, htodo⟩ :=
      ih (started ++ [op]) n (recordTransaction s op) (hrec n s op hP) hst2
    refine ⟨s1, hrun, ?_, fun j hj => hkeep j (recordTransaction_keeps s op j hj), ?_⟩
    · have hlen : n + (op :: rest).length + started.length =
          n + rest.length + (started ++ [op]).length := by
        simp only [List.length_cons, List.length_append, List.length_nil]
        omega
      rw [hlen]
      exact hP1
    · intro o ho
      rcases List.mem_cons.mp ho with h | h
      · subst h
        exact hkeep _ (recordTransaction_recorded s o)
      · exact htodo o h

theorem runSchedule_invariant (fuel : Nat) (P : Nat → Scheduler → Prop)
    (hrec : ∀ n s op, P n s → P n (recordTransaction s op))
    (hexec : ∀ n s op, P n s → s.recorded op.TxID = true →
      ∃ s', ExecuteOperation (fuel + 1) s op = .returned s' ∧ P (n + 1) s') :
    ∀ (sched : List Sched) (todo started : List Operation) (n : Nat) (s : Scheduler), P n s →
      (∀ op ∈ started, s.recorded op.TxID = true) →
      ∃ s', runSchedule (fuel + 1) sched todo started s = .returned s' ∧
        P (n + todo.length + started.length) s' ∧
        (∀ j, s.recorded j = true → s'.recorded j = true) ∧
        (∀ op ∈ todo, s'.recorded op.TxID = true) := by
  intro sched
  induction sched with
  | nil =>
    intro todo started n s hP hst
    exact finishAll_invariant fuel P hrec hexec todo started n s hP hst
  | cons step rest ih =>
    intro todo started n s hP hst
    cases step with
    | spawn =>
      cases todo with
      | nil => exact ih [] started n s hP hst
      | cons op todo2 =>
        have hst2 : ∀ o ∈ started ++ [op], (recordTransaction s op).recorded o.TxID = true := by
          intro o ho
          rcases List.mem_append.mp ho with h | h
          · exact recordTransaction_keeps s op _ (hst o h)
          · have : o = op := by simpa using h
            subst this
            exact recordTransaction_recorded s o
        obtain ⟨s1, hrun, hP1, hkeep, htodo⟩ :=
          ih todo2 (started ++ [op]) n (recordTransaction s op) (hrec n s op hP) hst2
        refine ⟨s1, hrun, ?_, fun j hj => hkeep j (recordTransaction_keeps s op j hj), ?_⟩
        · have hlen : n + (op :: todo2).length + started.length =
              n + todo2.length + (started ++ [op]).length := by
            simp only [List.length_cons, List.length_append, List.length_nil]
            omega
          rw [hlen]
          exact hP1
        · intro o ho
          rcases List.mem_cons.mp ho with h | h
          · subst h
            exact hkeep _ (recordTransaction_recorded s o)
          · exact htodo o h
    | run i =>
      cases hget : started.get? i with
      | none =>
        obtain ⟨s1, hrun, hrest⟩ := ih todo started n s hP hst
        exact ⟨s1, by simp only [runSchedule, hget]; exact hrun, hrest⟩
      | some op =>
        obtain ⟨hlt, hop⟩ := List.get?_eq_some.mp hget
        have hmem : op ∈ started := by
          rw [← hop]
          exact List.get_mem _ _ _
        obtain ⟨s1, hexe, hP1⟩ := hexec n s op hP (hst op hmem)
        have hkeep := ExecuteOperation_keeps_recorded fuel s s1 op hexe
        obtain ⟨s2, hrun, hP2, hkeep2, htodo⟩ :=
          ih todo (started.eraseIdx i) (n + 1) s1 hP1
            fun o ho => hkeep _ (hst o (List.mem_of_mem_eraseIdx ho))
        refine ⟨s2, by simp only [runSchedule, hget, hexe]; exact hrun, ?_,
          fun j hj => hkeep2 j (hkeep j hj), htodo⟩
        have hlen : n + 1 + todo.length + (started.eraseIdx i).length =
            n + todo.length + started.length := by
          rw [List.length_eraseIdx_of_lt hlt]
          omega
        rw [← hlen]
        exact hP2

theorem recordTransaction_fields (s : Scheduler) (op : Operation) :
    (recordTransaction s op).Database = s.Database ∧
    (recordTransaction s op).History = s.History ∧
    (recordTransaction s op).FinalHist = s.FinalHist ∧
    (recordTransaction s op).Delays = s.Delays ∧
    (recordTransaction s op).DeadlockCheck = s.DeadlockCheck := by
  unfold recordTransaction
  cases s.Transactions op.TxID <;> exact ⟨rfl, rfl, rfl, rfl, rfl⟩

theorem processDelays_no_queue (order : List Int) (s : Scheduler)
    (h : ∀ tx, s.queue tx = []) : processDelays order s = s := by
  unfold processDelays
  induction order with
  | nil => rfl
  | cons t rest ih =>
    have hstep : processDelaysTx s t = s := by
      unfold processDelaysTx
      cases hd : s.Delays t with
      | none => rfl
      | some ops =>
        have hq := h t
        simp only [Scheduler.queue, GoMap.read, hd, Option.getD_some] at hq
        rw [hq]
        rfl
    rw [List.foldl_cons, hstep]
    exact ih

theorem ExecuteOperation_no_queue (fuel : Nat) (s : Scheduler) (op : Operation) :
    ∃ s', (ExecuteOperation (fuel + 1) s op).state = some s' ∧
      ((∀ tx, s.queue tx = []) → ∀ tx, s'.queue tx = []) ∧
      ((∀ tx, s.Delays tx = none) → ∀ tx, s'.Delays tx = none) := by
  obtain ⟨s1, hrun, _, hcase⟩ := ExecuteOperation_cases fuel s op
  refine ⟨s1, hrun, ?_, ?_⟩
  · intro h tx
    rcases hcase with ⟨_, _, _, hd, _⟩ | ⟨_, _, hd, _⟩
    · simpa [Scheduler.queue, hd] using h tx
    · by_cases hk : tx = op.TxID
      · simp [Scheduler.queue, GoMap.read, GoMap.delete, hd, hk]
      · have := h tx
        simp only [Scheduler.queue, GoMap.read] at this
        simpa [Scheduler.queue, GoMap.read, GoMap.delete, hd, hk] using this
  · intro h tx
    rcases hcase with ⟨_, _, _, hd, _⟩ | ⟨_, _, hd, _⟩
    · rw [hd]
      exact h tx
    · by_cases hk : tx = op.TxID
      · simp [GoMap.delete, hd, hk]
      · simp [GoMap.delete, hd, hk, h tx]

/-- C20: when no transaction has a deferred queue, none has one in the state
`ExecuteOperation` leaves, whether the lock is granted or refused; hence the state
reached from a new scheduler by a serial run of the loop of `ProcessHistory`,
and the state reached from any state without queues by any sequence of
`ExecuteOperation` calls on recorded transactions, have no entry in `Delays`; and
`processDelays`, in any visiting order, returns a state without queues as it
was. -/
theorem queues_stay_empty (fuel : Nat) (s : Scheduler) (op : Operation) (order : List Int)
    (sched : List Sched) (operations : List Operation) :
    ((∀ tx, s.queue tx = []) →
      ∃ s', (ExecuteOperation (fuel + 1) s op).state = some s' ∧ ∀ tx, s'.queue tx = []) ∧
    ((∀ tx, s.Delays tx = none) →
      ∃ s', (ExecuteOperation (fuel + 1) s op).state = some s' ∧ ∀ tx, s'.Delays tx = none) ∧
    (∃ s', runSchedule (fuel + 1) sched operations [] (NewScheduler NewDatabase) = .returned s' ∧
      (∀ tx, s'.Delays tx = none) ∧ (∀ tx, s'.queue tx = []) ∧ processDelays order s' = s') ∧
    ((∀ tx, s.Delays tx = none) → (∀ o ∈ operations, s.recorded o.TxID = true) →
      ∃ s', rangeOps (ExecuteOperation (fuel + 1)) operations s = .returned s' ∧
        (∀ tx, s'.Delays tx = none) ∧ processDelays order s' = s') ∧
    ((∀ tx, s.queue tx = []) → processDelays order s = s) := by
  have hexec : ∀ (n : Nat) (s : Scheduler) (op : Operation),
      (∀ tx, s.Delays tx = none) → s.recorded op.TxID = true →
      ∃ s', ExecuteOperation (fuel + 1) s op = .returned s' ∧ ∀ tx, s'.Delays tx = none := by
    intro _ s op h hrec
    obtain ⟨s1, hrun, _, hcase⟩ := ExecuteOperation_cases fuel s op
    obtain ⟨s2, hrun2, _, hkeep⟩ := ExecuteOperation_no_queue fuel s op
    have hs : s2 = s1 := by
      rw [hrun] at hrun2
      exact (Option.some.inj hrun2).symm
    subst hs
    refine ⟨s2, ?_, hkeep h⟩
    rcases hcase with ⟨_, hret, _⟩ | ⟨_, _, _, _, _, hnone | ⟨t, _, hret, _⟩⟩
    · exact hret
    · simp [Scheduler.recorded, hnone.1] at hrec
    · exact hret
  have hqueue : ∀ s1 : Scheduler, (∀ tx, s1.Delays tx = none) → ∀ tx, s1.queue tx = [] := by
    intro s1 h tx
    simp [Scheduler.queue, GoMap.read, h tx]
  refine ⟨?_, ?_, ?_, ?_, processDelays_no_queue order s⟩
  · intro h
    obtain ⟨s1, hrun, hkeep, _⟩ := ExecuteOperation_no_queue fuel s op
    exact ⟨s1, hrun, hkeep h⟩
  · intro h
    obtain ⟨s1, hrun, _, hkeep⟩ := ExecuteOperation_no_queue fuel s op
    exact ⟨s1, hrun, hkeep h⟩
  · obtain ⟨s1, hrun, hP, _, _⟩ :=
      runSchedule_invariant fuel (fun _ s => ∀ tx, s.Delays tx = none)
        (fun _ s op h tx => by
          have hd := (recordTransaction_fields s op).2.2.2.1
          rw [hd]
          exact h tx)
        hexec sched operations [] 0 (NewScheduler NewDatabase) (fun _ => rfl)
        (fun _ h => absurd h (List.not_mem_nil _))
    exact ⟨s1, hrun, hP, hqueue s1 hP, processDelays_no_queue order s1 (hqueue s1 hP)⟩
  · intro h hrec
    obtain ⟨s1, hrun, hP, _⟩ :=
      rangeOps_invariant fuel (fun _ s => ∀ tx, s.Delays tx = none) hexec operations 0 s h hrec
    exact ⟨s1, hrun, hP, processDelays_no_queue order s1 (hqueue s1 hP)⟩

/-- Witness of `queues_stay_empty`: the refused write of the exclusively held `x`
on `lockedState`, which has no queue, leaves no queue behind. -/
theorem queues_stay_empty_witness :
    ∃ s', (ExecuteOperation 1 lockedState ⟨1, "w", "x"⟩).state = some s' ∧
      ∀ tx, s'.queue tx = [] :=
  (queues_stay_empty 0 lockedState ⟨1, "w", "x"⟩ [] [] []).1 (fun _ => rfl)

/-- The recording step of `ProcessHistory` (lines 156-158) stores the transaction
(that id, active, zero attempts) when the id is not recorded, returns the state as
it was when it is, and never touches the entry of another id; `ExecuteOperation`
on a state where the transaction of the operation is not recorded and the lock is
refused panics on the nil entry. -/
theorem recordTransaction_records (fuel : Nat) (s : Scheduler) :
    (∀ op : Operation, s.Transactions op.TxID = none →
      (recordTransaction s op).Transactions op.TxID =
        some { ID := op.TxID, Active := true, Attempts := 0 }) ∧
    (∀ op : Operation, s.recorded op.TxID = true → recordTransaction s op = s) ∧
    (∀ (op : Operation) (j : Int), j ≠ op.TxID →
      (recordTransaction s op).Transactions j = s.Transactions j) ∧
    (∀ op : Operation, s.Transactions op.TxID = none → (AcquireLock s op).1 = false →
      ∃ s', ExecuteOperation (fuel + 1) s op = .nilPanic s') := by
  refine ⟨?_, ?_, ?_, ?_⟩
  · intro op h
    simp [recordTransaction, h, GoMap.write, newTransaction]
  · intro op h
    unfold recordTransaction
    cases ht : s.Transactions op.TxID with
    | some t => rfl
    | none => simp [Scheduler.recorded, ht] at h
  · intro op j hj
    unfold recordTransaction
    cases s.Transactions op.TxID with
    | some t => rfl
    | none => simp [GoMap.write, hj]
  · intro op ht hg
    exact ⟨_, ExecuteOperation_refused_unregistered fuel s op hg ht⟩

theorem wrapInt_succ (a : Int) : wrapInt (wrapInt a + 1) = wrapInt (a + 1) := by
  unfold wrapInt
  omega

theorem initial_value_range (k : String) :
    0 ≤ (NewScheduler NewDatabase).value k ∧ (NewScheduler NewDatabase).value k ≤ 3 := by
  simp only [NewScheduler, NewDatabase, Scheduler.value, GoMap.read, GoMap.write, GoMap.empty]
  split_ifs <;> simp

theorem writesIn_append (k : String) (l : List Operation) (op : Operation) :
    writesIn k (l ++ [op]) = writesIn k l + if op.Typ = "w" ∧ op.Data = k then 1 else 0 := by
  simp only [writesIn, List.countP_append, List.countP_cons, List.countP_nil, decide_eq_true_eq]
  omega

theorem writesIn_le_length (k : String) (l : List Operation) : writesIn k l ≤ l.length :=
  List.countP_le_length _

theorem AcquireLock_unlocked (s : Scheduler) (op : Operation) (hl : s.lock op.Data = 0)
    (ht : op.Typ = "r" ∨ op.Typ = "w") : (AcquireLock s op).1 = true := by
  have hrw : ("w" : String) ≠ "r" := by decide
  rcases ht with hr | hw
  · simp [AcquireLock, hr, hl]
  · simp [AcquireLock, hw, hrw, hl]

theorem loopInvariant_ExecuteOperation (fuel n : Nat) (s : Scheduler) (op : Operation)
    (hinv : loopInvariant n s) (hrec : s.recorded op.TxID = true) :
    ∃ s', ExecuteOperation (fuel + 1) s op = .returned s' ∧ loopInvariant (n + 1) s' := by
  obtain ⟨hl, hq, hty, hlen, hval⟩ := hinv
  obtain ⟨s1, _, _, hcase⟩ := ExecuteOperation_cases fuel s op
  rcases hcase with ⟨hg, hret, hfin, hd, _, _, hlocks, hdata⟩ |
    ⟨hg, hfin, hd, _, hdb, hnone | ⟨t, _, hret, _⟩⟩
  · refine ⟨s1, hret, ?_, ?_, ?_, ?_, ?_⟩
    · intro k
      by_cases hk : k = op.Data
      · simp [Scheduler.lock, GoMap.read, GoMap.write, hlocks, hk]
      · have := hl k
        simp only [Scheduler.lock, GoMap.read] at this
        simp [Scheduler.lock, GoMap.read, GoMap.write, hlocks, hk, this]
    · intro tx
      simpa [Scheduler.queue, hd] using hq tx
    · intro o ho
      rw [hfin] at ho
      rcases List.mem_append.mp ho with h | h
      · exact hty o h
      · have : o = op := by simpa using h
        subst this
        rcases AcquireLock_true_cases s o hg with ⟨hr, _⟩ | ⟨hw, _⟩
        · exact Or.inl hr
        · exact Or.inr hw
    · rw [hfin]
      simp only [List.length_append, List.length_singleton]
      omega
    · intro k
      rw [hfin, writesIn_append]
      by_cases hw : op.Typ = "w"
      · rw [if_pos hw] at hdata
        by_cases hk : op.Data = k
        · subst hk
          have hv : s1.value op.Data = wrapInt (s.value op.Data + 1) := by
            simp [Scheduler.value, GoMap.read, GoMap.write, hdata]
          rw [hv, hval op.Data, wrapInt_succ, if_pos ⟨hw, rfl⟩]
          push_cast
          ring_nf
        · have hv : s1.value k = s.value k := by
            simp [Scheduler.value, GoMap.read, GoMap.write, hdata, Ne.symm hk]
          rw [hv, hval k, if_neg (fun h => hk h.2)]
          simp
      · rw [if_neg hw] at hdata
        have hv : s1.value k = s.value k := by
          simp [Scheduler.value, hdata]
        rw [hv, hval k, if_neg (fun h => hw h.1)]
        simp
  · simp [Scheduler.recorded, hnone.1] at hrec
  · have hnot : op ∉ s.FinalHist := by
      intro hmem
      have := AcquireLock_unlocked s op (hl op.Data) (hty op hmem)
      rw [hg] at this
      exact Bool.noConfusion this
    have hsame : s1.FinalHist = s.FinalHist := by
      rw [hfin, hq op.TxID]
      simp [List.diff_cons, List.erase_of_not_mem hnot]
    refine ⟨s1, hret, ?_, ?_, ?_, ?_, ?_⟩
    · intro k
      simpa [Scheduler.lock, hdb] using hl k
    · intro tx
      by_cases hk : tx = op.TxID
      · simp [Scheduler.queue, GoMap.read, GoMap.delete, hd, hk]
      · have := hq tx
        simp only [Scheduler.queue, GoMap.read] at this
        simpa [Scheduler.queue, GoMap.read, GoMap.delete, hd, hk] using this
    · rw [hsame]
      exact hty
    · rw [hsame]
      omega
    · intro k
      rw [hsame]
      simpa [Scheduler.value, hdb] using hval k

theorem diff_of_not_mem (ops l : List Operation) (h : ∀ o ∈ ops, o ∉ l) : l.diff ops = l := by
  induction ops with
  | nil => simp
  | cons a rest ih =>
    rw [List.diff_cons, List.erase_of_not_mem (h a (by simp))]
    exact ih fun o ho => h o (by simp [ho])

theorem runSteps_removes (ops : List Operation) (k : List Instr) (n : Nat) :
    ∀ s : Scheduler,
      runSteps (ops.length + n) (ops.map .remove ++ k) s =
        runSteps n k (ops.foldl removeOperationFromFinalHist s) := by
  induction ops with
  | nil =>
    intro s
    simp
  | cons op rest ih =>
    intro s
    have hlen : (op :: rest).length + n = (rest.length + n) + 1 := by
      simp only [List.length_cons]
      omega
    rw [hlen]
    simp only [List.map_cons, List.cons_append, runSteps, stepInstr, List.foldl_cons]
    exact ih _

theorem runSteps_nil (n : Nat) (s : Scheduler) : runSteps n [] s = .ok (s, []) := by
  cases n <;> rfl

theorem runSteps_granted (s : Scheduler) (op : Operation) (n : Nat)
    (hg : (AcquireLock s op).1 = true) :
    ∃ s', ExecuteOperation 1 s op = .returned s' ∧
      runSteps (n + 5) [.exec op] s = .ok (s', []) := by
  have hrw : ("w" : String) ≠ "r" := by decide
  rcases AcquireLock_true_cases s op hg with ⟨hr, hl⟩ | ⟨hw, hl⟩
  · have hl2 : ({ s with History := s.History ++ [op] } : Scheduler).lock op.Data = 0 ∨
        ({ s with History := s.History ++ [op] } : Scheduler).lock op.Data = 1 := hl
    refine ⟨_, ExecuteOperation_granted_read 0 s op hr hl, ?_⟩
    simp [runSteps, runSteps_nil, stepInstr, AcquireLock, hr, hl2, ReleaseLock,
      Scheduler.setLock, write_write]
  · have hl2 : ({ s with History := s.History ++ [op] } : Scheduler).lock op.Data = 0 := hl
    refine ⟨_, ExecuteOperation_granted_write 0 s op hw hl, ?_⟩
    simp [runSteps, runSteps_nil, stepInstr, AcquireLock, hw, hrw, hl2, ReleaseLock,
      Scheduler.setLock, Scheduler.setValue, Scheduler.value, write_write]

theorem runSteps_refused (s : Scheduler) (op : Operation) (n : Nat)
    (hg : (AcquireLock s op).1 = false) :
    (∀ t, s.Transactions op.TxID = some t →
      ∃ s', ExecuteOperation 1 s op = .returned s' ∧
        runSteps (n + (s.queue op.TxID).length + 10) [.exec op] s = .ok (s', [])) ∧
    (s.Transactions op.TxID = none →
      ∃ s', ExecuteOperation 1 s op = .nilPanic s' ∧
        runSteps (n + (s.queue op.TxID).length + 10) [.exec op] s = .error s') := by
  have hacq : AcquireLock { s with History := s.History ++ [op] } op =
      (false, { s with History := s.History ++ [op] }) := by
    rw [AcquireLock_with_History, AcquireLock_false_state s op hg]
  have hfuel : n + (s.queue op.TxID).length + 10 =
      ((s.queue op.TxID ++ [op]).length + (n + 3)) + 6 := by
    simp only [List.length_append, List.length_singleton]
    omega
  have hhead : runSteps (n + (s.queue op.TxID).length + 10) [.exec op] s =
      runSteps (n + 3) [.clear op.TxID, .bump op.TxID, .restart op.TxID]
        { s with
          History := s.History ++ [op]
          FinalHist := s.FinalHist.diff (s.queue op.TxID ++ [op])
          Delays := s.Delays.write op.TxID (s.queue op.TxID ++ [op])
          DeadlockCheck := s.DeadlockCheck.write op.TxID true } := by
    rw [hfuel]
    simp only [runSteps, stepInstr, hacq, Scheduler.flag, GoMap.read, GoMap.write, if_true,
      Option.getD_some, ↓reduceIte]
    change runSteps ((s.queue op.TxID ++ [op]).length + (n + 3))
      ((s.queue op.TxID ++ [op]).map .remove ++
        [.clear op.TxID, .bump op.TxID, .restart op.TxID]) _ = _
    rw [runSteps_removes, foldl_removeOperation]
    rfl
  constructor
  · intro t ht
    refine ⟨_, ExecuteOperation_refused_registered 0 s op hg t ht, ?_⟩
    rw [hhead]
    simp [runSteps, runSteps_nil, stepInstr, GoMap.write, ht, Scheduler.queue, GoMap.read,
      GoMap.delete, delete_write]
  · intro ht
    refine ⟨_, ExecuteOperation_refused_unregistered 0 s op hg ht, ?_⟩
    rw [hhead]
    simp [runSteps, stepInstr, ht, delete_write]

theorem ExecuteOperation_fuel (fuel : Nat) (s : Scheduler) (op : Operation) :
    ExecuteOperation (fuel + 1) s op = ExecuteOperation 1 s op := by
  cases hg : (AcquireLock s op).1 with
  | true =>
    rcases AcquireLock_true_cases s op hg with ⟨hr, hl⟩ | ⟨hw, hl⟩
    · rw [ExecuteOperation_granted_read fuel s op hr hl,
        ExecuteOperation_granted_read 0 s op hr hl]
    · rw [ExecuteOperation_granted_write fuel s op hw hl,
        ExecuteOperation_granted_write 0 s op hw hl]
  | false =>
    cases ht : s.Transactions op.TxID with
    | none =>
      rw [ExecuteOperation_refused_unregistered fuel s op hg ht,
        ExecuteOperation_refused_unregistered 0 s op hg ht]
    | some t =>
      rw [ExecuteOperation_refused_registered fuel s op hg t ht,
        ExecuteOperation_refused_registered 0 s op hg t ht]

theorem runSteps_exec (fuel : Nat) (s s' : Scheduler) (op : Operation)
    (h : ExecuteOperation (fuel + 1) s op = .returned s') :
    ∃ n, runSteps n [.exec op] s = .ok (s', []) := by
  rw [ExecuteOperation_fuel] at h
  cases hg : (AcquireLock s op).1 with
  | true =>
    obtain ⟨s1, hret, hrun⟩ := runSteps_granted s op 0 hg
    rw [hret] at h
    cases h
    exact ⟨_, hrun⟩
  | false =>
    cases ht : s.Transactions op.TxID with
    | none =>
      obtain ⟨s1, hret, _⟩ := (runSteps_refused s op 0 hg).2 ht
      rw [hret] at h
      cases h
    | some t =>
      obtain ⟨s1, hret, hrun⟩ := (runSteps_refused s op 0 hg).1 t ht
      rw [hret] at h
      cases h
      exact ⟨_, hrun⟩

theorem eraseIdx_map_exec (ops : List Operation) (i : Nat) :
    (ops.map fun op => [Instr.exec op]).eraseIdx i =
      (ops.eraseIdx i).map fun op => [Instr.exec op] := by
  induction ops generalizing i with
  | nil => rfl
  | cons a rest ih =>
    cases i with
    | zero => rfl
    | succ j =>
      simp only [List.map_cons, List.eraseIdx_cons_succ, ih]

theorem runMoves_run (fuel : Nat) (s s1 : Scheduler) (todo started : List Operation)
    (i : Nat) (op : Operation) (hget : started.get? i = some op)
    (hexe : ExecuteOperation (fuel + 1) s op = .returned s1) :
    ∃ n, ({ shared := s, todo := todo,
            running := started.map fun op => [Instr.exec op] } : Pool).move (.steps i n) =
      .ok { shared := s1, todo := todo,
            running := (started.eraseIdx i).map fun op => [Instr.exec op] } := by
  obtain ⟨n, hrun⟩ := runSteps_exec fuel s s1 op hexe
  have hget2 : (started.map fun op => [Instr.exec op]).get? i = some [Instr.exec op] := by
    rw [List.get?_eq_getElem?, List.getElem?_map, ← List.get?_eq_getElem?, hget]
    rfl
  refine ⟨n, ?_⟩
  simp only [Pool.move, hget2, hrun, eraseIdx_map_exec]

theorem rangeOps_is_run (fuel : Nat) (ops : List Operation) :
    ∀ s s' : Scheduler, rangeOps (ExecuteOperation (fuel + 1)) ops s = .returned s' →
      ∃ moves, runMoves moves
        { shared := s, todo := [], running := ops.map fun op => [Instr.exec op] } =
          .returned s' := by
  induction ops with
  | nil =>
    intro s s' h
    have hs : s = s' := by
      simp only [rangeOps] at h
      cases h
      rfl
    subst hs
    exact ⟨[], rfl⟩
  | cons op rest ih =>
    intro s s' h
    cases hexe : ExecuteOperation (fuel + 1) s op with
    | returned s1 =>
      simp only [rangeOps, hexe] at h
      obtain ⟨moves, hmoves⟩ := ih s1 s' h
      obtain ⟨n, hmove⟩ := runMoves_run fuel s s1 [] (op :: rest) 0 op rfl hexe
      refine ⟨.steps 0 n :: moves, ?_⟩
      simp only [runMoves, hmove]
      exact hmoves
    | nilPanic s1 => simp [rangeOps, hexe] at h
    | outOfFuel => simp [rangeOps, hexe] at h

theorem finishAll_is_run (fuel : Nat) (todo : List Operation) :
    ∀ (started : List Operation) (s s' : Scheduler),
      finishAll (fuel + 1) todo started s = .returned s' →
      ∃ moves, runMoves moves
        { shared := s, todo := todo, running := started.map fun op => [Instr.exec op] } =
          .returned s' := by
  induction todo with
  | nil =>
    intro started s s' h
    exact rangeOps_is_run fuel started s s' h
  | cons op rest ih =>
    intro started s s' h
    obtain ⟨moves, hmoves⟩ := ih (started ++ [op]) (recordTransaction s op) s' h
    refine ⟨.spawn :: moves, ?_⟩
    simp only [runMoves, Pool.move]
    simpa using hmoves

theorem runSchedule_is_run (fuel : Nat) (sched : List Sched) :
    ∀ (todo started : List Operation) (s s' : Scheduler),
      runSchedule (fuel + 1) sched todo started s = .returned s' →
      ∃ moves, runMoves moves
        { shared := s, todo := todo, running := started.map fun op => [Instr.exec op] } =
          .returned s' := by
  induction sched with
  | nil =>
    intro todo started s s' h
    exact finishAll_is_run fuel todo started s s' h
  | cons step rest ih =>
    intro todo started s s' h
    cases step with
    | spawn =>
      cases todo with
      | nil => exact ih [] started s s' h
      | cons op todo2 =>
        obtain ⟨moves, hmoves⟩ := ih todo2 (started ++ [op]) (recordTransaction s op) s' h
        refine ⟨.spawn :: moves, ?_⟩
        simp only [runMoves, Pool.move]
        simpa using hmoves
    | run i =>
      cases hget : started.get? i with
      | none =>
        simp only [runSchedule, hget] at h
        exact ih todo started s s' h
      | some op =>
        cases hexe : ExecuteOperation (fuel + 1) s op with
        | returned s1 =>
          simp only [runSchedule, hget, hexe] at h
          obtain ⟨moves, hmoves⟩ := ih todo (started.eraseIdx i) s1 s' h
          obtain ⟨n, hmove⟩ := runMoves_run fuel s s1 todo started i op hget hexe
          refine ⟨.steps i n :: moves, ?_⟩
          simp only [runMoves, hmove]
          exact hmoves
        | nilPanic s1 =>
          simp only [runSchedule, hget, hexe] at h
          cases h
        | outOfFuel =>
          simp only [runSchedule, hget, hexe] at h
          cases h

/-- C11, as amended: in every serial run of the loop of `ProcessHistory` on the
initial scheduler, that is a run in which the `ExecuteOperation` calls of the
goroutines run one after another in any order, for fewer than 2^63 - 3 operations,
the loop returns a state that `processDelays` leaves unchanged in any visiting
order, that a run of `ProcessHistory` returns, and in which the stored value of
every key is its initial value plus the number of writes of the key in
`FinalHist`.  From an arbitrary state the equation is kept by `ExecuteOperation`
when the lock is granted and the written value is an `int` below the largest one,
by `ExecuteOperation` when the lock is refused and neither the operation nor a
queued operation of its transaction is in `FinalHist`, and by `abortTransaction`
when no queued operation of the transaction is in `FinalHist`. -/
theorem value_equation_reached (fuel : Nat) :
    (∀ (sched : List Sched) (order : List Int) (operations : List Operation),
      (operations.length : Int) + 3 ≤ maxInt →
      ∃ s', runSchedule (fuel + 1) sched operations [] (NewScheduler NewDatabase) =
          .returned s' ∧
        processDelays order s' = s' ∧
        (∃ moves, ProcessHistory moves order operations (NewScheduler NewDatabase) =
          .returned s') ∧
        valueEquation (fun k => (NewScheduler NewDatabase).value k) s') ∧
    (∀ (init : String → Int) (s : Scheduler) (op : Operation),
      (AcquireLock s op).1 = true →
      (op.Typ = "w" → minInt ≤ s.value op.Data ∧ s.value op.Data < maxInt) →
      valueEquation init s →
      ∃ s', ExecuteOperation (fuel + 1) s op = .returned s' ∧ valueEquation init s') ∧
    (∀ (init : String → Int) (s : Scheduler) (op : Operation),
      (AcquireLock s op).1 = false →
      (∀ o ∈ s.queue op.TxID ++ [op], o ∉ s.FinalHist) →
      valueEquation init s →
      ∃ s', (ExecuteOperation (fuel + 1) s op).state = some s' ∧ valueEquation init s') ∧
    (∀ (init : String → Int) (s : Scheduler) (txID : Int),
      (∀ o ∈ s.queue txID, o ∉ s.FinalHist) →
      valueEquation init s →
      ∃ s', (abortTransaction fuel s txID).state = some s' ∧ valueEquation init s') := by
  refine ⟨?_, ?_, ?_, ?_⟩
  · intro sched order operations hlen
    have h0 : loopInvariant 0 (NewScheduler NewDatabase) := by
      refine ⟨fun _ => rfl, fun _ => rfl, fun o ho => absurd ho (List.not_mem_nil _),
        Nat.le_refl _, ?_⟩
      intro k
      have hr := initial_value_range k
      have hw : writesIn k (NewScheduler NewDatabase).FinalHist = 0 := rfl
      rw [hw, wrapInt_of_range]
      · simp
      · unfold minInt; simp only [Nat.cast_zero, add_zero]; omega
      · unfold maxInt; simp only [Nat.cast_zero, add_zero]; omega
    obtain ⟨s1, hrun, hinv, _, _⟩ :=
      runSchedule_invariant fuel loopInvariant
        (fun n s op h => by
          obtain ⟨hdb, _, hfin, hd, _⟩ := recordTransaction_fields s op
          obtain ⟨h1, h2, h3, h4, h5⟩ := h
          refine ⟨?_, ?_, ?_, ?_, ?_⟩
          · intro k
            simpa [Scheduler.lock, hdb] using h1 k
          · intro tx
            simpa [Scheduler.queue, hd] using h2 tx
          · rw [hfin]; exact h3
          · rw [hfin]; exact h4
          · intro k
            rw [hfin]
            simpa [Scheduler.value, hdb] using h5 k)
        (fun n s op h hrec => loopInvariant_ExecuteOperation fuel n s op h hrec)
        sched operations [] 0 (NewScheduler NewDatabase) h0
        (fun _ h => absurd h (List.not_mem_nil _))
    obtain ⟨_, hq, _, hcount, hval⟩ := hinv
    refine ⟨s1, hrun, processDelays_no_queue order s1 hq, ?_, ?_⟩
    · obtain ⟨moves, hmoves⟩ :=
        runSchedule_is_run fuel sched operations [] (NewScheduler NewDatabase) s1 hrun
      refine ⟨moves, ?_⟩
      have hpool : runMoves moves
          { shared := NewScheduler NewDatabase, todo := operations, running := [] } =
            .returned s1 := hmoves
      simp only [ProcessHistory, hpool, processDelays_no_queue order s1 hq]
    · intro k
      have hr := initial_value_range k
      have hle := writesIn_le_length k s1.FinalHist
      have hc : (writesIn k s1.FinalHist : Int) ≤ operations.length := by
        have : writesIn k s1.FinalHist ≤ operations.length := by
          simp only [List.length_nil, Nat.add_zero, Nat.zero_add] at hcount
          omega
        exact_mod_cast this
      show s1.value k = (NewScheduler NewDatabase).value k + writesIn k s1.FinalHist
      rw [hval k]
      apply wrapInt_of_range
      · unfold minInt
        have : (0 : Int) ≤ writesIn k s1.FinalHist := Int.natCast_nonneg _
        omega
      · omega
  · intro init s op hg hrange heq
    obtain ⟨s1, _, _, hcase⟩ := ExecuteOperation_cases fuel s op
    rcases hcase with ⟨_, hret, hfin, _, _, _, _, hdata⟩ | ⟨hg2, _⟩
    · refine ⟨s1, hret, ?_⟩
      intro k
      rw [hfin, writesIn_append]
      by_cases hw : op.Typ = "w"
      · rw [if_pos hw] at hdata
        obtain ⟨hlo, hhi⟩ := hrange hw
        by_cases hk : op.Data = k
        · subst hk
          have hv : s1.value op.Data = wrapInt (s.value op.Data + 1) := by
            simp [Scheduler.value, GoMap.read, GoMap.write, hdata]
          rw [hv, wrapInt_of_range (s.value op.Data + 1) (by omega) (by omega),
            heq op.Data, if_pos ⟨hw, rfl⟩]
          push_cast
          ring
        · have hv : s1.value k = s.value k := by
            simp [Scheduler.value, GoMap.read, GoMap.write, hdata, Ne.symm hk]
          rw [hv, heq k, if_neg (fun h => hk h.2)]
          simp
      · rw [if_neg hw] at hdata
        have hv : s1.value k = s.value k := by
          simp [Scheduler.value, hdata]
        rw [hv, heq k, if_neg (fun h => hw h.1)]
        simp
    · rw [hg] at hg2
      exact Bool.noConfusion hg2
  · intro init s op hg hnot heq
    obtain ⟨s1, hrun, _, hcase⟩ := ExecuteOperation_cases fuel s op
    rcases hcase with ⟨hg2, _⟩ | ⟨_, hfin, _, _, hdb, _⟩
    · rw [hg] at hg2
      exact Bool.noConfusion hg2
    · refine ⟨s1, hrun, ?_⟩
      intro k
      rw [hfin, diff_of_not_mem _ _ hnot]
      simpa [Scheduler.value, hdb] using heq k
  · intro init s txID hnot heq
    unfold abortTransaction
    cases ht : s.Transactions txID with
    | none =>
      rw [abortTransactionWith_unregistered _ s txID ht]
      refine ⟨_, rfl, ?_⟩
      intro k
      simpa [Scheduler.value, diff_of_not_mem _ _ hnot] using heq k
    | some t =>
      rw [abortTransactionWith_registered _ s txID t ht]
      refine ⟨_, rfl, ?_⟩
      intro k
      simpa [Scheduler.value, diff_of_not_mem _ _ hnot] using heq k

/-- Witness of `value_equation_reached`: the four operations of `main`, the second
goroutine running before the first and the other two after the loop, leave the
value equation true. -/
theorem value_equation_reached_witness :
    ∃ s', runSchedule 1 [.spawn, .spawn, .run 1, .run 0] mainOperations []
          (NewScheduler NewDatabase) = .returned s' ∧
        processDelays [2, 1] s' = s' ∧
        (∃ moves, ProcessHistory moves [2, 1] mainOperations (NewScheduler NewDatabase) =
          .returned s') ∧
        valueEquation (fun k => (NewScheduler NewDatabase).value k) s' :=
  (value_equation_reached 0).1 [.spawn, .spawn, .run 1, .run 0] [2, 1] mainOperations
    (by decide)

/-- C11 as stated fails in both parts.  Reached states: in the run `mainOverlap` of
`ProcessHistory` on the operations of `main` from the initial scheduler, where the
calls of the goroutines overlap, `ProcessHistory` returns with `FinalHist` holding
`T2 w x` and `T2 w y` only and `x` at 3, which is not its initial value 1 plus the
one write of `x` in `FinalHist`.  Preservation: `queuedState` satisfies the value
equation, `abortTransaction` of transaction 1 returns, and in the state it returns
`x` is still 2 while `FinalHist` holds no write of `x`. -/
theorem value_equation_broken :
    ((ProcessHistory mainOverlap [1, 2] mainOperations (NewScheduler NewDatabase)).isReturned =
        true ∧
      (ProcessHistory mainOverlap [1, 2] mainOperations (NewScheduler NewDatabase)).state.map
          (fun s' => (s'.FinalHist, s'.value "x", writesIn "x" s'.FinalHist)) =
        some ([⟨2, "w", "x"⟩, ⟨2, "w", "y"⟩], 3, 1) ∧
      (3 : Int) ≠ (NewScheduler NewDatabase).value "x" + ((1 : Nat) : Int)) ∧
    (valueEquation (fun k => (NewScheduler NewDatabase).value k) queuedState ∧
      (abortTransaction 1 queuedState 1).isReturned = true ∧
      (abortTransaction 1 queuedState 1).state.map
          (fun s' => (s'.value "x", writesIn "x" s'.FinalHist)) = some (2, 0) ∧
      (2 : Int) ≠ (NewScheduler NewDatabase).value "x" + ((0 : Nat) : Int)) := by
  refine ⟨⟨by decide, by decide, by decide⟩, ?_, by decide, by decide, by decide⟩
  intro k
  simp only [queuedState, NewScheduler, NewDatabase, Scheduler.value, GoMap.read, GoMap.write,
    GoMap.empty, writesIn, List.countP_cons, List.countP_nil]
  by_cases hz : k = "z"
  · subst hz
    decide
  · by_cases hy : k = "y"
    · subst hy
      decide
    · by_cases hx : k = "x"
      · subst hx
        decide
      · simp [hz, hy, hx, Ne.symm hx, Ne.symm hy]

end TwoPL
